import Mathlib

/-!
Verification of the InferAnki Speechify TTS handler
(`src/InferAnki/functions/tts_handler.py`) against its specification.

Strings of the Python source are embedded as `List Char`.  Each
`re.sub(pattern, repl, s)` call of the source is embedded as
`rsub m repl s`, where the matcher `m` returns, for a suffix of the
text, the length of the (leftmost-starting) match of `pattern` at the
head of that suffix, or `0` when the pattern does not match there.
Every pattern used by the source matches at least one character, so `0`
is unambiguous as "no match".  `rsub` scans left to right and replaces
non-overlapping matches, continuing after each replacement without
rescanning it, exactly as `re.sub` does.

Python whitespace (`\s`, `str.strip`) is modelled by the ASCII
whitespace characters, which are the only whitespace characters the
claims and the source exercise.  The speech-rate float of the source is
modelled as a rational number (`speech_rate`); every Python float is a
rational and `speech_rate != 1.0` is exact comparison, so the model is
faithful.  The decimal rendering used inside the prosody wrapper is
carried separately as `speech_rate_str`, standing for Python's
`str(self.speech_rate)`.
-/

/-- Python `\s` / `str.strip` whitespace, restricted to the ASCII range. -/
def pyWs (c : Char) : Bool :=
  c == ' ' || c == '\t' || c == '\n' || c == '\r' || c == '\x0b' || c == '\x0c'

/-- Python `str.strip()`: drop whitespace from both ends. -/
def pyStrip (s : List Char) : List Char :=
  List.reverse (List.dropWhile pyWs (List.reverse (List.dropWhile pyWs s)))

/-- Fueled engine of `re.sub`: at each position try the matcher; on a
match of length `n+1` emit the replacement and continue after the
match, otherwise keep the character and move on.  The fuel only needs
to be at least the length of the string. -/
def rsubF (m : List Char → Nat) (r : List Char) : Nat → List Char → List Char
  | _, [] => []
  | 0, s => s
  | f + 1, c :: cs =>
    match m (c :: cs) with
    | 0 => c :: rsubF m r f cs
    | n + 1 => r ++ rsubF m r f (List.drop n cs)

/-- Embedding of `re.sub(pattern, r, s)` for the matcher `m` of `pattern`. -/
def rsub (m : List Char → Nat) (r : List Char) (s : List Char) : List Char :=
  rsubF m r s.length s

/-- Matcher of a literal pattern (also models `str.replace`). -/
def matchLit (pat : List Char) (t : List Char) : Nat :=
  if pat.isPrefixOf t then pat.length else 0

/-- Embedding of `s.replace(pat, repl)` (leftmost, non-overlapping). -/
def replaceAllLit (pat repl : List Char) (s : List Char) : List Char :=
  rsub (matchLit pat) repl s

/-- Length of the run of periods at the head of the text. -/
def dotRun (t : List Char) : Nat :=
  (List.takeWhile (fun c => c == '.') t).length

/-- Matcher of `\.{4,}` (greedy: the whole run). -/
def matchDots4 (t : List Char) : Nat :=
  if 4 ≤ dotRun t then dotRun t else 0

/-- Matcher of `\.{3}`. -/
def matchDots3 (t : List Char) : Nat :=
  if 3 ≤ dotRun t then 3 else 0

/-- Matcher of `\.{2}`. -/
def matchDots2 (t : List Char) : Nat :=
  if 2 ≤ dotRun t then 2 else 0

/-- Matcher of `\s*\|\s*`. -/
def matchPipe (t : List Char) : Nat :=
  match List.dropWhile pyWs t with
  | '|' :: r =>
    (List.takeWhile pyWs t).length + 1 + (List.takeWhile pyWs r).length
  | _ => 0

/-- Matcher of `\s+-\s+` (whitespace required on both sides). -/
def matchDash (t : List Char) : Nat :=
  match t with
  | c :: _ =>
    if pyWs c then
      match List.dropWhile pyWs t with
      | '-' :: r =>
        let w2 := (List.takeWhile pyWs r).length
        if w2 = 0 then 0 else (List.takeWhile pyWs t).length + 1 + w2
      | _ => 0
    else 0
  | [] => 0

/-- Matcher of `\s*<\s*`. -/
def matchLt (t : List Char) : Nat :=
  match List.dropWhile pyWs t with
  | '<' :: r =>
    (List.takeWhile pyWs t).length + 1 + (List.takeWhile pyWs r).length
  | _ => 0

/-- Matcher of `\s*>\s*`. -/
def matchGt (t : List Char) : Nat :=
  match List.dropWhile pyWs t with
  | '>' :: r =>
    (List.takeWhile pyWs t).length + 1 + (List.takeWhile pyWs r).length
  | _ => 0

/-- Matcher of `\r?\n+`. -/
def matchNewline (t : List Char) : Nat :=
  match t with
  | '\r' :: '\n' :: r => 2 + (List.takeWhile (fun c => c == '\n') r).length
  | '\n' :: r => 1 + (List.takeWhile (fun c => c == '\n') r).length
  | _ => 0

/-- Case-insensitive match of a lowercase-letter pattern against a prefix
of the text (models the `re.IGNORECASE` flag on tag names). -/
def ciPrefixName : List Char → List Char → Bool
  | [], _ => true
  | _ :: _, [] => false
  | p :: ps, c :: cs => (c == p || c == p.toUpper) && ciPrefixName ps cs

/-- Matcher of `<br\s*/?>` with `re.IGNORECASE`. -/
def matchBr (t : List Char) : Nat :=
  match t with
  | '<' :: c1 :: c2 :: r =>
    if (c1 == 'b' || c1 == 'B') && (c2 == 'r' || c2 == 'R') then
      let wl := (List.takeWhile pyWs r).length
      match List.dropWhile pyWs r with
      | '/' :: '>' :: _ => 3 + wl + 2
      | '>' :: _ => 3 + wl + 1
      | _ => 0
    else 0
  | _ => 0

/-- Matcher of `<br\s*/?>\s*<br\s*/?>` with `re.IGNORECASE`. -/
def matchBrBr (t : List Char) : Nat :=
  match matchBr t with
  | 0 => 0
  | n =>
    let u := List.drop n t
    let wl := (List.takeWhile pyWs u).length
    match matchBr (List.drop wl u) with
    | 0 => 0
    | k => n + wl + k

/-- Matcher of `<NAME[^>]*>` (no closing slash), `re.IGNORECASE`. -/
def matchOpenTag (name : List Char) (t : List Char) : Nat :=
  match t with
  | '<' :: r2 =>
    if ciPrefixName name r2 then
      let r3 := List.drop name.length r2
      let body := List.takeWhile (fun c => c != '>') r3
      match List.drop body.length r3 with
      | '>' :: _ => 1 + name.length + body.length + 1
      | _ => 0
    else 0
  | _ => 0

/-- Matcher of `</?NAME[^>]*>`, `re.IGNORECASE`. -/
def matchAnyFormTag (name : List Char) (t : List Char) : Nat :=
  match t with
  | '<' :: '/' :: r2 =>
    if ciPrefixName name r2 then
      let r3 := List.drop name.length r2
      let body := List.takeWhile (fun c => c != '>') r3
      match List.drop body.length r3 with
      | '>' :: _ => 2 + name.length + body.length + 1
      | _ => 0
    else matchOpenTag name t
  | _ => matchOpenTag name t

/-- Matcher of `</NAME>\s*<NAME[^>]*>`, `re.IGNORECASE`. -/
def matchCloseThenOpen (name : List Char) (t : List Char) : Nat :=
  match t with
  | '<' :: '/' :: r =>
    if ciPrefixName name r then
      match List.drop name.length r with
      | '>' :: rest =>
        let wl := (List.takeWhile pyWs rest).length
        match matchOpenTag name (List.drop wl rest) with
        | 0 => 0
        | k => 2 + name.length + 1 + wl + k
      | _ => 0
    else 0
  | _ => 0

/-- Matcher of `<[^>]+>` (non-empty body). -/
def matchAnyTag (t : List Char) : Nat :=
  match t with
  | '<' :: r =>
    let body := List.takeWhile (fun c => c != '>') r
    if body.isEmpty then 0
    else
      match List.drop body.length r with
      | '>' :: _ => 2 + body.length
      | _ => 0
  | _ => 0

/-- Matcher of `<[^>]*>` (body may be empty), used by the bullet pattern. -/
def matchTag0 (t : List Char) : Nat :=
  match t with
  | '<' :: r =>
    let body := List.takeWhile (fun c => c != '>') r
    match List.drop body.length r with
    | '>' :: _ => 2 + body.length
    | _ => 0
  | _ => 0

/-- Offset-plus-length of the leftmost `<br\s*/?>\s*<br\s*/?>` match in
the text, or `0` when there is none (models the lazy `.*?` that stops at
the first double line break). -/
def findBrBr : List Char → Nat
  | [] => 0
  | c :: cs =>
    match matchBrBr (c :: cs) with
    | 0 =>
      match findBrBr cs with
      | 0 => 0
      | k => k + 1
    | n => n

/-- Matcher of `(?:<[^>]*>)?🔸.*?<br\s*/?>\s*<br\s*/?>` with
`re.IGNORECASE | re.DOTALL`. -/
def matchBullet1 (t : List Char) : Nat :=
  let plain : List Char → Nat := fun u =>
    match u with
    | '🔸' :: rest =>
      match findBrBr rest with
      | 0 => 0
      | k => 1 + k
    | _ => 0
  match matchTag0 t with
  | 0 => plain t
  | n =>
    match plain (List.drop n t) with
    | 0 => plain t
    | k => n + k

/-- Matcher of `(?:<[^>]*>)?🔸.*$` with `re.DOTALL`: consumes the whole
remaining text. -/
def matchBullet2 (t : List Char) : Nat :=
  match t with
  | '🔸' :: _ => t.length
  | _ =>
    match matchTag0 t with
    | 0 => 0
    | n =>
      match List.drop n t with
      | '🔸' :: _ => t.length
      | _ => 0

/-- Matcher of `\s+` (a maximal whitespace run). -/
def matchWsRun (t : List Char) : Nat :=
  (List.takeWhile pyWs t).length

/-- The long-pause placeholder `⟨LONG_PAUSE⟩` of the source. -/
def longPH : List Char :=
  ['⟨', 'L', 'O', 'N', 'G', '_', 'P', 'A', 'U', 'S', 'E', '⟩']

/-- The medium-pause placeholder `⟨MED_PAUSE⟩` of the source. -/
def medPH : List Char :=
  ['⟨', 'M', 'E', 'D', '_', 'P', 'A', 'U', 'S', 'E', '⟩']

/-- The long-pause replacement text `" ... "`. -/
def spcDots3 : List Char := [' ', '.', '.', '.', ' ']

/-- The short-pause replacement text `" .. "`. -/
def spcDots2 : List Char := [' ', '.', '.', ' ']

/-- The comma-space separator `", "`. -/
def commaSp : List Char := [',', ' ']

/-- The named-entity table of the source, in its insertion order. -/
def entityTable : List (List Char × List Char) :=
  [ (['&', 'n', 'b', 's', 'p', ';'], [' ']),
    (['&', 'a', 'm', 'p', ';'], ['&']),
    (['&', 'q', 'u', 'o', 't', ';'], ['"']),
    (['&', 'a', 'p', 'o', 's', ';'], ['\'']),
    (['&', '#', '3', '9', ';'], ['\'']),
    (['&', 'm', 'd', 'a', 's', 'h', ';'], ['—']),
    (['&', 'n', 'd', 'a', 's', 'h', ';'], ['–']),
    (['&', 'h', 'e', 'l', 'l', 'i', 'p', ';'], ['.', '.', '.']),
    (['&', 'r', 's', 'q', 'u', 'o', ';'], ['\'']),
    (['&', 'l', 's', 'q', 'u', 'o', ';'], ['\'']),
    (['&', 'r', 'd', 'q', 'u', 'o', ';'], ['"']),
    (['&', 'l', 'd', 'q', 'u', 'o', ';'], ['"']) ]

/-- The literal `&lt;`. -/
def ltEnt : List Char := ['&', 'l', 't', ';']

/-- The literal `&gt;`. -/
def gtEnt : List Char := ['&', 'g', 't', ';']

/-- The two bullet-stripping substitutions (FIRST block of the source). -/
def bulletStage (s : List Char) : List Char :=
  rsub matchBullet2 [] (rsub matchBullet1 [] s)

/-- The entity-decoding loop (SECOND block): each table entry applied by
`str.replace` in insertion order. -/
def entityPass (s : List Char) : List Char :=
  List.foldl (fun acc pr => replaceAllLit pr.1 pr.2 acc) s entityTable

/-- The tag-handling substitutions (THIRD block). -/
def tagStage (s : List Char) : List Char :=
  let t1 := rsub matchBr spcDots2 (rsub matchBrBr spcDots3 s)
  let t2 := rsub (matchAnyFormTag ['l', 'i']) [' ']
    (rsub (matchCloseThenOpen ['l', 'i']) spcDots2 t1)
  let t3 := rsub (matchAnyFormTag ['o', 'l']) [' ']
    (rsub (matchAnyFormTag ['u', 'l']) [' '] t2)
  rsub (matchAnyFormTag ['d', 'i', 'v']) [' ']
    (rsub (matchCloseThenOpen ['d', 'i', 'v']) spcDots2 t3)

/-- The pipe-separator substitution (`\s*\|\s*` to `", "`). -/
def pipePass (s : List Char) : List Char := rsub matchPipe commaSp s

/-- The dash-separator substitution (`\s+-\s+` to `", "`). -/
def dashPass (s : List Char) : List Char := rsub matchDash commaSp s

/-- The angle-bracket substitutions (`\s*<\s*` then `\s*>\s*` to `", "`). -/
def anglePass (s : List Char) : List Char :=
  rsub matchGt commaSp (rsub matchLt commaSp s)

/-- The linebreak substitution (`\r?\n+` to `" ... "`). -/
def newlinePass (s : List Char) : List Char := rsub matchNewline spcDots3 s

/-- The dot-run classification: `\.{4,}`, then `\.{3}`, then `\.{2}` into
placeholders, then placeholder resolution to the final pause markers. -/
def dotStage (s : List Char) : List Char :=
  rsub (matchLit medPH) spcDots2
    (rsub (matchLit longPH) spcDots3
      (rsub matchDots2 medPH
        (rsub matchDots3 longPH
          (rsub matchDots4 longPH s))))

/-- The whitespace-collapsing substitution (`\s+` to a single space). -/
def wsPass (s : List Char) : List Char := rsub matchWsRun [' '] s

/-- The whole normalization pipeline of `process_text_for_tts`, from the
initial `text.strip()` through the final whitespace cleanup, before the
speech-rate wrapping and the final emptiness check. -/
def normalizePasses (text : List Char) : List Char :=
  let t0 := pyStrip text
  let t1 := bulletStage t0
  let t2 := entityPass t1
  let t3 := tagStage t2
  let t4 := rsub matchAnyTag [] t3
  let t5 := replaceAllLit gtEnt ['>'] (replaceAllLit ltEnt ['<'] t4)
  let t6 := dashPass (pipePass t5)
  let t7 := anglePass t6
  let t8 := newlinePass t7
  let t9 := dotStage t8
  pyStrip (wsPass t9)

/-- Configuration of `SpeechifyTTSProcessor`, restricted to the options
the verified functions read.  `speech_rate` models the float
`self.speech_rate` exactly (every float is rational); `speech_rate_str`
models Python's decimal rendering `str(self.speech_rate)` used inside
the prosody wrapper. -/
structure TTSConfig where
  enabled : Bool
  api_key : List Char
  max_chars : Nat
  debug_mode : Bool
  voice_id : List Char
  language_code : List Char
  speech_rate : ℚ
  speech_rate_str : List Char
deriving DecidableEq

/-- Opening text of the prosody wrapper, `<prosody rate="R">`. -/
def prosodyOpen (cfg : TTSConfig) : List Char :=
  ['<', 'p', 'r', 'o', 's', 'o', 'd', 'y', ' ', 'r', 'a', 't', 'e', '=', '"']
    ++ cfg.speech_rate_str ++ ['"', '>']

/-- Closing text of the prosody wrapper, `</prosody>`. -/
def prosodyClose : List Char :=
  ['<', '/', 'p', 'r', 'o', 's', 'o', 'd', 'y', '>']

/-- The speech-rate wrapping of the source. -/
def prosodyWrap (cfg : TTSConfig) (t : List Char) : List Char :=
  prosodyOpen cfg ++ t ++ prosodyClose

/-- A Python value passed to `process_text_for_tts`: a string, `None`,
or any non-string value. -/
inductive PyInput where
  | pyStr (s : List Char)
  | pyNone
  | pyOther
deriving DecidableEq

/-- Embedding of `process_text_for_tts`.  Empty and non-string input is
rejected by the initial guard; then the normalization pipeline runs,
the speech-rate wrapper is applied when the rate differs from `1.0`,
and an empty final string short-circuits to the empty result.  The
debug logging of the source does not touch the returned string and is
not modelled. -/
def processTextForTTS (cfg : TTSConfig) (x : PyInput) : List Char :=
  match x with
  | PyInput.pyStr s =>
    if s.isEmpty then []
    else
      let t := normalizePasses s
      let t2 := if cfg.speech_rate ≠ 1 then prosodyWrap cfg t else t
      if t2.isEmpty then [] else t2
  | _ => []

/-- Final text of a maximal period run of length `n`, as the spec
describes the dot-run classification: three or more periods become the
long-pause marker, exactly two the short-pause marker, and a lone
period stays. -/
def pauseOfRun (n : Nat) : List Char :=
  if 3 ≤ n then spcDots3 else if n = 2 then spcDots2 else List.replicate n '.'

/-- Modelled from the spec: run-at-a-time dot classification.  Each
maximal run of periods is replaced by `pauseOfRun` of its length; all
other characters are kept.  This is the specification-side description
the source's placeholder-based substitution chain is compared with. -/
def dotRunSpecF : Nat → List Char → List Char
  | _, [] => []
  | 0, s => s
  | f + 1, c :: cs =>
    if c = '.' then
      pauseOfRun (dotRun (c :: cs)) ++
        dotRunSpecF f (List.drop (dotRun (c :: cs) - 1) cs)
    else c :: dotRunSpecF f cs

/-- Entry point of the spec-side dot classification. -/
def dotRunSpec (s : List Char) : List Char :=
  dotRunSpecF s.length s

/-- Whitespace-surrounded hyphen detector: true when some hyphen has a
whitespace character immediately on both sides. -/
def hasWsDashWs : List Char → Bool
  | a :: b :: c :: r => (pyWs a && (b == '-') && pyWs c) || hasWsDashWs (b :: c :: r)
  | _ => false

/-- Detector of a run of two or more periods. -/
def hasDotDot : List Char → Bool
  | a :: b :: r => (a == '.' && b == '.') || hasDotDot (b :: r)
  | _ => false

/-- Characters counted as markup or separator triggers by the pipeline:
angle brackets (the ASCII ones and the mathematical ones used as
placeholder delimiters), pipes, newlines and the bullet glyph. -/
def plainChar (c : Char) : Bool :=
  !(c == '<' || c == '>' || c == '|' || c == '\n' || c == '\r' ||
    c == '🔸' || c == '⟨' || c == '⟩')

/-- Boolean test that `pat` occurs as a contiguous subsequence of the
text. -/
def containsSeq (pat : List Char) : List Char → Bool
  | [] => List.isPrefixOf pat []
  | c :: cs => List.isPrefixOf pat (c :: cs) || containsSeq pat cs

/-- Input with no markup, no HTML entities and no special characters in
the sense of the spec: no angle brackets (hence no tags and no
placeholder text), no pipes, no newlines, no bullet glyph, no
whitespace-surrounded hyphen, no multi-period run, and no entity of the
fixed table nor `&lt;`/`&gt;`. -/
def plainInput (s : List Char) : Bool :=
  s.all plainChar && !hasWsDashWs s && !hasDotDot s &&
  entityTable.all (fun pr => !containsSeq pr.1 s) &&
  !containsSeq ltEnt s && !containsSeq gtEnt s

/-- An Anki note, embedded as its ordered fields: pairs of field name
and field value.  Positional access (`note.fields[i]`) reads the value
list; name access (`field in note`, `note[field] = v`) uses the names. -/
structure Note where
  fields : List (List Char × List Char)
deriving DecidableEq

/-- The editor handle: it may or may not carry a note. -/
structure Editor where
  note : Option Note
deriving DecidableEq

/-- The audio field candidates of the source, in priority order. -/
def audioFieldNames : List (List Char) :=
  [ ['A', 'u', 'd', 'i', 'o'], ['a', 'u', 'd', 'i', 'o'],
    ['S', 'o', 'u', 'n', 'd'], ['s', 'o', 'u', 'n', 'd'] ]

/-- Membership test `field in editor.note`. -/
def noteHasField (n : Note) (name : List Char) : Bool :=
  n.fields.any (fun f => f.1 == name)

/-- Assignment `editor.note[name] = val`. -/
def setField (n : Note) (name val : List Char) : Note :=
  ⟨n.fields.map (fun f => if f.1 == name then (f.1, val) else f)⟩

/-- The first audio field name present in the note, if any. -/
def firstAudioField (n : Note) : Option (List Char) :=
  List.find? (fun name => noteHasField n name) audioFieldNames

/-- Embedding of `get_field_content`: the value at field index 1, or
empty when the note is missing or too short. -/
def getFieldContent (ed : Editor) : List Char :=
  match ed.note with
  | some n =>
    match n.fields.get? 1 with
    | some f => f.2
    | none => []
  | none => []

/-- Embedding of `clear_audio_field`: blank the first present audio
field and stop (the `break` of the source). -/
def clearAudioField (ed : Editor) : Editor :=
  match ed.note with
  | some n =>
    match firstAudioField n with
    | some name => ⟨some (setField n name [])⟩
    | none => ed
  | none => ed

/-- Outcomes of the external collaborators of one `process_text` run:
library availability, the synthesis call (`False` stands for a vendor
or transport exception, caught by the source), the temporary file path,
`os.path.exists` on it, the media-store registration, the returned
media name, and whether `os.remove` succeeds. -/
structure Env where
  speechifyAvailable : Bool
  synthOk : Bool
  tempPath : List Char
  audioFileExists : Bool
  mediaAddOk : Bool
  mediaName : List Char
  removeOk : Bool
deriving DecidableEq

/-- The missing-credential check of `process_text`. -/
def apiKeyMissing (cfg : TTSConfig) : Bool :=
  cfg.api_key.isEmpty ||
    cfg.api_key == ['y', 'o', 'u', 'r', '-', 'a', 'p', 'i', '-', 'k', 'e', 'y',
                    '-', 'h', 'e', 'r', 'e']

/-- Embedding of `create_audio_file`: `none` models every `return None`
path (disabled, library missing, empty processed text, or an exception
in the synthesis block); `some` returns the temporary file path, which
is exactly when the temporary file has been written. -/
def createAudioFile (cfg : TTSConfig) (env : Env) (text : List Char) :
    Option (List Char) :=
  if ¬cfg.enabled ∨ ¬env.speechifyAvailable then none
  else
    let processed := processTextForTTS cfg (PyInput.pyStr text)
    if processed.isEmpty ∨ (pyStrip processed).isEmpty then none
    else if env.synthOk then some env.tempPath else none

/-- The inline audio reference `[sound:NAME]`. -/
def soundTag (mediaName : List Char) : List Char :=
  ['[', 's', 'o', 'u', 'n', 'd', ':'] ++ mediaName ++ [']']

/-- Embedding of `add_audio_to_note`: fail when the file is missing,
when the media store raises, when there is no note, or when no audio
field exists; otherwise write the sound tag into the first audio field
and succeed. -/
def addAudioToNote (ed : Editor) (env : Env) : Bool × Editor :=
  if ¬env.audioFileExists then (false, ed)
  else if ¬env.mediaAddOk then (false, ed)
  else
    match ed.note with
    | some n =>
      match firstAudioField n with
      | some name => (true, ⟨some (setField n name (soundTag env.mediaName))⟩)
      | none => (false, ed)
    | none => (false, ed)

/-- Observable outcome of one `process_text` run: the returned boolean,
the final editor state, whether a temporary audio file was created, and
whether it was deleted before returning. -/
structure ProcResult where
  ok : Bool
  editor : Editor
  tempCreated : Bool
  tempDeleted : Bool
deriving DecidableEq

/-- Embedding of `process_text`: configuration and input validation,
then `clear_audio_field`, `create_audio_file`, `add_audio_to_note`, and
the cleanup `os.remove` that the source performs only on the success
path (wrapped in a silent `try`/`except`, modelled by `removeOk`). -/
def processText (cfg : TTSConfig) (env : Env) (ed : Editor) : ProcResult :=
  if ¬cfg.enabled then ⟨false, ed, false, false⟩
  else if ¬env.speechifyAvailable then ⟨false, ed, false, false⟩
  else if apiKeyMissing cfg then ⟨false, ed, false, false⟩
  else
    let text := getFieldContent ed
    if (pyStrip text).isEmpty then ⟨false, ed, false, false⟩
    else if cfg.max_chars < text.length then ⟨false, ed, false, false⟩
    else
      let ed1 := clearAudioField ed
      match createAudioFile cfg env text with
      | none => ⟨false, ed1, false, false⟩
      | some _ =>
        let r := addAudioToNote ed1 env
        if r.1 then ⟨true, r.2, true, env.removeOk⟩
        else ⟨false, r.2, true, false⟩

/-- A concrete configuration with the neutral speech rate `1.0`. -/
def cfgNeutral : TTSConfig :=
  ⟨true, ['k'], 40000, false, ['s', 'c', 'o', 't', 't'],
    ['n', 'b', '-', 'N', 'O'], 1, ['1', '.', '0']⟩

/-- A concrete configuration with the non-neutral speech rate `2.0`. -/
def cfgDouble : TTSConfig :=
  ⟨true, ['k'], 40000, true, ['s', 'c', 'o', 't', 't'],
    ['n', 'b', '-', 'N', 'O'], 2, ['2', '.', '0']⟩

/-- A concrete note with a populated audio field. -/
def noteWithAudio : Note :=
  ⟨[ (['F', 'r', 'o', 'n', 't'], ['h', 'i']),
     (['B', 'a', 'c', 'k'], ['h', 'e', 'l', 'l', 'o']),
     (['A', 'u', 'd', 'i', 'o'],
       ['[', 's', 'o', 'u', 'n', 'd', ':', 'o', '.', 'm', 'p', '3', ']']) ]⟩

/-- A concrete note with no audio field at all. -/
def noteNoAudio : Note :=
  ⟨[ (['F', 'r', 'o', 'n', 't'], ['h', 'i']),
     (['B', 'a', 'c', 'k'], ['h', 'e', 'l', 'l', 'o']) ]⟩

/-- An environment in which the synthesis call fails. -/
def envSynthFail : Env :=
  ⟨true, false, ['t', 'm', 'p'], true, true, ['m', '.', 'm', 'p', '3'], true⟩

/-- An environment in which every external collaborator succeeds. -/
def envAllOk : Env :=
  ⟨true, true, ['t', 'm', 'p'], true, true, ['m', '.', 'm', 'p', '3'], true⟩

/-- An editor holding the note with a populated audio field. -/
def edWithAudio : Editor := ⟨some noteWithAudio⟩

/-- An editor holding the note without any audio field. -/
def edNoAudio : Editor := ⟨some noteNoAudio⟩

/-- A second neutral-rate configuration differing from `cfgNeutral` in
every field the normalizer does not read. -/
def cfgNeutralAlt : TTSConfig :=
  ⟨false, ['z'], 7, true, ['e', 'm', 'm', 'a'], ['e', 'n'], 1,
    ['1', '.', '0']⟩

theorem rsubF_succ_zero (m : List Char → Nat) (r : List Char) (f : Nat)
    (c : Char) (cs : List Char) (h : m (c :: cs) = 0) :
    rsubF m r (f + 1) (c :: cs) = c :: rsubF m r f cs := by
  simp only [rsubF, h]

theorem rsubF_succ_pos (m : List Char → Nat) (r : List Char) (f n : Nat)
    (c : Char) (cs : List Char) (h : m (c :: cs) = n + 1) :
    rsubF m r (f + 1) (c :: cs) = r ++ rsubF m r f (List.drop n cs) := by
  simp only [rsubF, h]

theorem rsubF_congr (m : List Char → Nat) (r : List Char) :
    ∀ (f g : Nat) (s : List Char), s.length ≤ f → s.length ≤ g →
      rsubF m r f s = rsubF m r g s := by
  intro f
  induction f with
  | zero =>
    intro g s hf hg
    cases s with
    | nil => cases g <;> rfl
    | cons c cs => simp at hf
  | succ f ih =>
    intro g s hf hg
    cases s with
    | nil => cases g <;> rfl
    | cons c cs =>
      cases g with
      | zero => simp at hg
      | succ g' =>
        simp only [List.length_cons, Nat.add_le_add_iff_right] at hf hg
        cases h : m (c :: cs) with
        | zero =>
          rw [rsubF_succ_zero m r f c cs h, rsubF_succ_zero m r g' c cs h,
            ih g' cs hf hg]
        | succ n =>
          have hd : (List.drop n cs).length ≤ f := by
            rw [List.length_drop]; omega
          have hd' : (List.drop n cs).length ≤ g' := by
            rw [List.length_drop]; omega
          rw [rsubF_succ_pos m r f n c cs h, rsubF_succ_pos m r g' n c cs h,
            ih g' (List.drop n cs) hd hd']

theorem rsub_cons_zero (m : List Char → Nat) (r : List Char) (c : Char)
    (cs : List Char) (h : m (c :: cs) = 0) :
    rsub m r (c :: cs) = c :: rsub m r cs := by
  simp only [rsub, List.length_cons, rsubF, h]

theorem rsub_cons_pos (m : List Char → Nat) (r : List Char) (c : Char)
    (cs : List Char) (n : Nat) (h : m (c :: cs) = n + 1) :
    rsub m r (c :: cs) = r ++ rsub m r (List.drop n cs) := by
  simp only [rsub, List.length_cons, rsubF, h]
  congr 1
  exact rsubF_congr m r cs.length (List.drop n cs).length (List.drop n cs)
    (by rw [List.length_drop]; omega) (le_refl _)

theorem rsub_append_zero (m : List Char → Nat) (r : List Char) :
    ∀ (a b : List Char), (∀ i, i < a.length → m (List.drop i a ++ b) = 0) →
      rsub m r (a ++ b) = a ++ rsub m r b := by
  intro a
  induction a with
  | nil => intro b _; simp
  | cons c a' ih =>
    intro b h
    have h0 : m (c :: (a' ++ b)) = 0 := by
      have := h 0 (by simp)
      simpa using this
    rw [List.cons_append, rsub_cons_zero m r c (a' ++ b) h0]
    rw [ih b (fun i hi => by
      have := h (i + 1) (by simp only [List.length_cons]; omega)
      simpa using this)]
    rfl

theorem rsub_append_triggerless (m : List Char → Nat) (r : List Char)
    (trig : Char → Prop) (hm : ∀ c cs, m (c :: cs) ≠ 0 → trig c) :
    ∀ (a b : List Char), (∀ c ∈ a, ¬ trig c) →
      rsub m r (a ++ b) = a ++ rsub m r b := by
  intro a
  induction a with
  | nil => intro b _; simp
  | cons c a' ih =>
    intro b ha
    have h0 : m (c :: (a' ++ b)) = 0 := by
      by_contra hne
      exact ha c (List.mem_cons_self c a') (hm c (a' ++ b) hne)
    rw [List.cons_append, rsub_cons_zero m r c (a' ++ b) h0]
    rw [ih b (fun x hx => ha x (List.mem_cons_of_mem c hx))]
    rfl

theorem rsub_eq_self (m : List Char → Nat) (r : List Char) :
    ∀ (s : List Char), (∀ c cs, (c :: cs) <:+ s → m (c :: cs) = 0) →
      rsub m r s = s := by
  intro s
  induction s with
  | nil => intro _; rfl
  | cons c cs ih =>
    intro h
    rw [rsub_cons_zero m r c cs (h c cs (List.suffix_refl _))]
    rw [ih (fun c' cs' hsuf => h c' cs' (hsuf.trans (List.suffix_cons c cs)))]

theorem mem_rsubF (m : List Char → Nat) (r : List Char) (x : Char) :
    ∀ (f : Nat) (s : List Char), x ∈ rsubF m r f s → x ∈ r ∨ x ∈ s := by
  intro f
  induction f with
  | zero =>
    intro s hx
    cases s with
    | nil => simp [rsubF] at hx
    | cons c cs => exact Or.inr hx
  | succ f ih =>
    intro s hx
    cases s with
    | nil => simp [rsubF] at hx
    | cons c cs =>
      simp only [rsubF] at hx
      cases h : m (c :: cs) with
      | zero =>
        rw [h] at hx
        rcases List.mem_cons.mp hx with h1 | h1
        · exact Or.inr (h1 ▸ List.mem_cons_self c cs)
        · rcases ih cs h1 with h2 | h2
          · exact Or.inl h2
          · exact Or.inr (List.mem_cons_of_mem c h2)
      | succ n =>
        rw [h] at hx
        rcases List.mem_append.mp hx with h1 | h1
        · exact Or.inl h1
        · rcases ih (List.drop n cs) h1 with h2 | h2
          · exact Or.inl h2
          · exact Or.inr (List.mem_cons_of_mem c (List.drop_subset n cs h2))

theorem mem_rsub (m : List Char → Nat) (r : List Char) (x : Char)
    (s : List Char) (hx : x ∈ rsub m r s) : x ∈ r ∨ x ∈ s :=
  mem_rsubF m r x s.length s hx

theorem rsub_pres_not_mem (m : List Char → Nat) (r : List Char) (bad : Char)
    (s : List Char) (hr : bad ∉ r) (hs : bad ∉ s) : bad ∉ rsub m r s :=
  fun hmem => (mem_rsub m r bad s hmem).elim hr hs

theorem not_mem_rsubF (m : List Char → Nat) (r : List Char) (bad : Char)
    (hm : ∀ cs, m (bad :: cs) ≠ 0) (hr : bad ∉ r) :
    ∀ (f : Nat) (s : List Char), s.length ≤ f → bad ∉ rsubF m r f s := by
  intro f
  induction f with
  | zero =>
    intro s hf
    cases s with
    | nil => simp [rsubF]
    | cons c cs => simp at hf
  | succ f ih =>
    intro s hf
    cases s with
    | nil => simp [rsubF]
    | cons c cs =>
      simp only [List.length_cons, Nat.add_le_add_iff_right] at hf
      simp only [rsubF]
      cases h : m (c :: cs) with
      | zero =>
        intro hmem
        rcases List.mem_cons.mp hmem with h1 | h1
        · exact hm cs (h1 ▸ h)
        · exact ih cs hf h1
      | succ n =>
        intro hmem
        rcases List.mem_append.mp hmem with h1 | h1
        · exact hr h1
        · exact ih (List.drop n cs) (by rw [List.length_drop]; omega) h1

theorem not_mem_rsub (m : List Char → Nat) (r : List Char) (bad : Char)
    (s : List Char) (hm : ∀ cs, m (bad :: cs) ≠ 0) (hr : bad ∉ r) :
    bad ∉ rsub m r s :=
  not_mem_rsubF m r bad hm hr s.length s (le_refl _)

theorem mem_pyStrip (x : Char) (s : List Char) (h : x ∈ pyStrip s) : x ∈ s := by
  unfold pyStrip at h
  rw [List.mem_reverse] at h
  have h2 := (List.dropWhile_sublist pyWs).subset h
  rw [List.mem_reverse] at h2
  exact (List.dropWhile_sublist pyWs).subset h2

theorem matchLit_prefix (pat t : List Char) (h : matchLit pat t ≠ 0) :
    pat <+: t := by
  unfold matchLit at h
  split at h
  case isTrue hp => exact List.isPrefixOf_iff_prefix.mp hp
  case isFalse => exact absurd rfl h

theorem matchLit_cons_ne (q : Char) (p' : List Char) (c : Char) (t : List Char)
    (hc : c ≠ q) : matchLit (q :: p') (c :: t) = 0 := by
  have : List.isPrefixOf (q :: p') (c :: t) = false := by
    simp [List.isPrefixOf]
    intro h
    exact absurd h.symm hc
  simp [matchLit, this]

theorem rsub_lit_cons (q : Char) (p' : List Char) (r x : List Char) :
    rsub (matchLit (q :: p')) r ((q :: p') ++ x) =
      r ++ rsub (matchLit (q :: p')) r x := by
  have hm : matchLit (q :: p') ((q :: p') ++ x) = p'.length + 1 := by
    have hp : List.isPrefixOf (q :: p') ((q :: p') ++ x) = true :=
      List.isPrefixOf_iff_prefix.mpr (List.prefix_append _ _)
    simp [matchLit, hp]
  rw [List.cons_append, rsub_cons_pos _ r q (p' ++ x) p'.length hm,
    List.drop_left p' x]

theorem containsSeq_of_prefix (pat s : List Char) (h : pat <+: s) :
    containsSeq pat s = true := by
  cases s with
  | nil =>
    have hp : pat = [] := List.prefix_nil.mp h
    subst hp; rfl
  | cons c cs =>
    unfold containsSeq
    rw [List.isPrefixOf_iff_prefix.mpr h]
    rfl

theorem containsSeq_cons (pat : List Char) (c : Char) (cs : List Char)
    (h : containsSeq pat cs = true) : containsSeq pat (c :: cs) = true := by
  unfold containsSeq
  rw [h, Bool.or_true]

theorem containsSeq_of_within (pat s : List Char) (h : pat <:+: s) :
    containsSeq pat s = true := by
  obtain ⟨u, v, huv⟩ := h
  subst huv
  induction u with
  | nil => exact containsSeq_of_prefix pat _ (by simp [List.prefix_append pat v])
  | cons c u' ih => exact containsSeq_cons pat c _ ih

theorem infix_of_prefix_suffix (pat t s : List Char) (h1 : pat <+: t)
    (h2 : t <:+ s) : pat <:+: s :=
  h1.isInfix.trans h2.isInfix

theorem hasWsDashWs_cons (x : Char) (l : List Char)
    (h : hasWsDashWs l = true) : hasWsDashWs (x :: l) = true := by
  cases l with
  | nil => simp [hasWsDashWs] at h
  | cons l1 l2 =>
    cases l2 with
    | nil => simp [hasWsDashWs] at h
    | cons l2' l3 =>
      unfold hasWsDashWs
      rw [h, Bool.or_true]

theorem hasWsDashWs_of (u v : List Char) (a b : Char) (ha : pyWs a = true)
    (hb : pyWs b = true) : hasWsDashWs (u ++ a :: '-' :: b :: v) = true := by
  induction u with
  | nil => simp [hasWsDashWs, ha, hb]
  | cons x u' ih => exact hasWsDashWs_cons x _ ih

theorem hasDotDot_cons (x : Char) (l : List Char) (h : hasDotDot l = true) :
    hasDotDot (x :: l) = true := by
  cases l with
  | nil => simp [hasDotDot] at h
  | cons l1 l2 =>
    unfold hasDotDot
    rw [h, Bool.or_true]

theorem hasDotDot_of (u v : List Char) :
    hasDotDot (u ++ '.' :: '.' :: v) = true := by
  induction u with
  | nil => simp [hasDotDot]
  | cons x u' ih => exact hasDotDot_cons x _ ih

theorem matchPipe_mem (t : List Char) (h : matchPipe t ≠ 0) : '|' ∈ t := by
  unfold matchPipe at h
  split at h
  case _ r heq =>
    have hm : '|' ∈ List.dropWhile pyWs t := by
      rw [heq]; exact List.mem_cons_self _ _
    exact (List.dropWhile_sublist pyWs).subset hm
  case _ => exact absurd rfl h

theorem matchLt_mem (t : List Char) (h : matchLt t ≠ 0) : '<' ∈ t := by
  unfold matchLt at h
  split at h
  case _ r heq =>
    have hm : '<' ∈ List.dropWhile pyWs t := by
      rw [heq]; exact List.mem_cons_self _ _
    exact (List.dropWhile_sublist pyWs).subset hm
  case _ => exact absurd rfl h

theorem matchGt_mem (t : List Char) (h : matchGt t ≠ 0) : '>' ∈ t := by
  unfold matchGt at h
  split at h
  case _ r heq =>
    have hm : '>' ∈ List.dropWhile pyWs t := by
      rw [heq]; exact List.mem_cons_self _ _
    exact (List.dropWhile_sublist pyWs).subset hm
  case _ => exact absurd rfl h

theorem matchDash_decomp (t : List Char) (h : matchDash t ≠ 0) :
    ∃ u a b v, pyWs a = true ∧ pyWs b = true ∧
      t = u ++ a :: '-' :: b :: v := by
  unfold matchDash at h
  split at h
  case _ c t0 =>
    by_cases hws : pyWs c
    · rw [if_pos hws] at h
      split at h
      case _ r heq =>
        simp only [] at h
        by_cases hw2 : (List.takeWhile pyWs r).length = 0
        · rw [if_pos hw2] at h
          exact absurd rfl h
        · have hr : ∃ b r', r = b :: r' ∧ pyWs b = true := by
            cases r with
            | nil => simp at hw2
            | cons b r' =>
              refine ⟨b, r', rfl, ?_⟩
              by_cases hb : pyWs b
              · exact hb
              · rw [List.takeWhile_cons, if_neg (by simp [hb])] at hw2
                simp at hw2
          obtain ⟨b, r', hr, hb⟩ := hr
          have htw : List.takeWhile pyWs (c :: t0) ≠ [] := by
            rw [List.takeWhile_cons, if_pos (by simp [hws])]
            simp
          have hdecomp : c :: t0 =
              List.takeWhile pyWs (c :: t0) ++ '-' :: b :: r' := by
            conv_lhs => rw [← List.takeWhile_append_dropWhile pyWs (c :: t0)]
            rw [heq, hr]
          rcases List.eq_nil_or_concat (List.takeWhile pyWs (c :: t0)) with
            hnil | ⟨L, a, hL⟩
          · exact absurd hnil htw
          · refine ⟨L, a, b, r', ?_, hb, ?_⟩
            · have ha : a ∈ List.takeWhile pyWs (c :: t0) := by
                rw [hL]; simp
              exact List.mem_takeWhile_imp ha
            · rw [hdecomp, hL]
              simp
      case _ => exact absurd rfl h
    · rw [if_neg hws] at h
      exact absurd rfl h
  case _ => exact absurd rfl h

theorem matchNewline_head (c : Char) (cs : List Char)
    (h : matchNewline (c :: cs) ≠ 0) : c = '\r' ∨ c = '\n' := by
  unfold matchNewline at h
  split at h
  case _ r heq =>
    injection heq with h1 _
    exact Or.inl h1
  case _ r heq =>
    injection heq with h1 _
    exact Or.inr h1
  case _ h1 h2 => exact absurd rfl h

theorem matchBr_head (c : Char) (cs : List Char) (hc : c ≠ '<') :
    matchBr (c :: cs) = 0 := by
  unfold matchBr
  split
  case _ c1 c2 r heq =>
    injection heq with h1 _
    exact absurd h1 hc
  case _ => rfl

theorem matchBrBr_head (c : Char) (cs : List Char) (hc : c ≠ '<') :
    matchBrBr (c :: cs) = 0 := by
  simp only [matchBrBr, matchBr_head c cs hc]

theorem matchOpenTag_head (name : List Char) (c : Char) (cs : List Char)
    (hc : c ≠ '<') : matchOpenTag name (c :: cs) = 0 := by
  unfold matchOpenTag
  split
  case _ r2 heq =>
    injection heq with h1 _
    exact absurd h1 hc
  case _ => rfl

theorem matchAnyFormTag_head (name : List Char) (c : Char) (cs : List Char)
    (hc : c ≠ '<') : matchAnyFormTag name (c :: cs) = 0 := by
  unfold matchAnyFormTag
  split
  case _ r2 heq =>
    injection heq with h1 _
    exact absurd h1 hc
  case _ => exact matchOpenTag_head name c cs hc

theorem matchCloseThenOpen_head (name : List Char) (c : Char) (cs : List Char)
    (hc : c ≠ '<') : matchCloseThenOpen name (c :: cs) = 0 := by
  unfold matchCloseThenOpen
  split
  case _ r heq =>
    injection heq with h1 _
    exact absurd h1 hc
  case _ => rfl

theorem matchAnyTag_head (c : Char) (cs : List Char) (hc : c ≠ '<') :
    matchAnyTag (c :: cs) = 0 := by
  unfold matchAnyTag
  split
  case _ r heq =>
    injection heq with h1 _
    exact absurd h1 hc
  case _ => rfl

theorem matchTag0_head (c : Char) (cs : List Char) (hc : c ≠ '<') :
    matchTag0 (c :: cs) = 0 := by
  unfold matchTag0
  split
  case _ r heq =>
    injection heq with h1 _
    exact absurd h1 hc
  case _ => rfl

theorem matchBullet1_head (c : Char) (cs : List Char) (hc1 : c ≠ '<')
    (hc2 : c ≠ '🔸') : matchBullet1 (c :: cs) = 0 := by
  simp only [matchBullet1, matchTag0_head c cs hc1]
  split
  case _ rest heq =>
    injection heq with h1 _
    exact absurd h1 hc2
  case _ => rfl

theorem matchBullet2_head (c : Char) (cs : List Char) (hc1 : c ≠ '<')
    (hc2 : c ≠ '🔸') : matchBullet2 (c :: cs) = 0 := by
  unfold matchBullet2
  split
  case _ rest heq =>
    injection heq with h1 _
    exact absurd h1 hc2
  case _ => simp only [matchTag0_head c cs hc1]

theorem dotRun_cons (c : Char) (cs : List Char) :
    dotRun (c :: cs) = if c = '.' then dotRun cs + 1 else 0 := by
  by_cases hc : c = '.'
  · subst hc
    simp [dotRun, List.takeWhile_cons]
  · simp [dotRun, List.takeWhile_cons, hc]

theorem dotRun_replicate_append (t : List Char) :
    ∀ n, dotRun (List.replicate n '.' ++ t) = n + dotRun t := by
  intro n
  induction n with
  | zero => simp
  | succ k ih =>
    rw [List.replicate_succ, List.cons_append, dotRun_cons, if_pos rfl, ih]
    omega

theorem dots_decomp (t : List Char) :
    t = List.replicate (dotRun t) '.' ++
      List.dropWhile (fun c => c == '.') t := by
  have h1 : List.takeWhile (fun c => c == '.') t =
      List.replicate (dotRun t) '.' := by
    rw [List.eq_replicate_iff]
    refine ⟨rfl, ?_⟩
    intro b hb
    have := List.mem_takeWhile_imp hb
    simpa using this
  conv_lhs => rw [← List.takeWhile_append_dropWhile (fun c => c == '.') t]
  rw [h1]

theorem dotRun_dropWhile_dots (t : List Char) :
    dotRun (List.dropWhile (fun c => c == '.') t) = 0 := by
  induction t with
  | nil => rfl
  | cons x xs ih =>
    rw [List.dropWhile_cons]
    by_cases hx : x = '.'
    · rw [if_pos (by simp [hx])]
      exact ih
    · rw [if_neg (by simp [hx]), dotRun_cons, if_neg hx]

theorem matchDots4_head (c : Char) (cs : List Char) (hc : c ≠ '.') :
    matchDots4 (c :: cs) = 0 := by
  simp [matchDots4, dotRun_cons, hc]

theorem matchDots3_head (c : Char) (cs : List Char) (hc : c ≠ '.') :
    matchDots3 (c :: cs) = 0 := by
  simp [matchDots3, dotRun_cons, hc]

theorem matchDots2_head (c : Char) (cs : List Char) (hc : c ≠ '.') :
    matchDots2 (c :: cs) = 0 := by
  simp [matchDots2, dotRun_cons, hc]

theorem matchDots4_trig (c : Char) (cs : List Char)
    (h : matchDots4 (c :: cs) ≠ 0) : c = '.' := by
  by_contra hc
  exact h (matchDots4_head c cs hc)

theorem matchDots3_trig (c : Char) (cs : List Char)
    (h : matchDots3 (c :: cs) ≠ 0) : c = '.' := by
  by_contra hc
  exact h (matchDots3_head c cs hc)

theorem matchDots2_trig (c : Char) (cs : List Char)
    (h : matchDots2 (c :: cs) ≠ 0) : c = '.' := by
  by_contra hc
  exact h (matchDots2_head c cs hc)

theorem matchLit_trig (q : Char) (p' : List Char) (c : Char) (cs : List Char)
    (h : matchLit (q :: p') (c :: cs) ≠ 0) : c = q := by
  by_contra hc
  exact h (matchLit_cons_ne q p' c cs hc)

theorem dotRun_rsub_zero (m : List Char → Nat) (r : List Char)
    (hm : ∀ c cs, m (c :: cs) ≠ 0 → c = '.') (X : List Char)
    (hX : dotRun X = 0) : dotRun (rsub m r X) = 0 := by
  cases X with
  | nil => rfl
  | cons c cs =>
    have hc : c ≠ '.' := by
      intro hcc
      rw [dotRun_cons, if_pos hcc] at hX
      omega
    have h0 : m (c :: cs) = 0 := by
      by_contra hne
      exact hc (hm c cs hne)
    rw [rsub_cons_zero _ _ _ _ h0, dotRun_cons, if_neg hc]

theorem rsub_dots4_skip (r t : List Char) (ht : dotRun t = 0) :
    ∀ n, n ≤ 3 → rsub matchDots4 r (List.replicate n '.' ++ t) =
      List.replicate n '.' ++ rsub matchDots4 r t := by
  intro n
  induction n with
  | zero => intro _; simp
  | succ k ih =>
    intro hk
    rw [List.replicate_succ, List.cons_append]
    have h0 : matchDots4 ('.' :: (List.replicate k '.' ++ t)) = 0 := by
      unfold matchDots4
      rw [dotRun_cons, if_pos rfl, dotRun_replicate_append t k, ht]
      rw [if_neg (by omega)]
    rw [rsub_cons_zero _ _ _ _ h0, ih (by omega), List.cons_append]

theorem rsub_dots3_skip (r t : List Char) (ht : dotRun t = 0) :
    ∀ n, n ≤ 2 → rsub matchDots3 r (List.replicate n '.' ++ t) =
      List.replicate n '.' ++ rsub matchDots3 r t := by
  intro n
  induction n with
  | zero => intro _; simp
  | succ k ih =>
    intro hk
    rw [List.replicate_succ, List.cons_append]
    have h0 : matchDots3 ('.' :: (List.replicate k '.' ++ t)) = 0 := by
      unfold matchDots3
      rw [dotRun_cons, if_pos rfl, dotRun_replicate_append t k, ht]
      rw [if_neg (by omega)]
    rw [rsub_cons_zero _ _ _ _ h0, ih (by omega), List.cons_append]

theorem rsub_dots2_skip (r t : List Char) (ht : dotRun t = 0) :
    ∀ n, n ≤ 1 → rsub matchDots2 r (List.replicate n '.' ++ t) =
      List.replicate n '.' ++ rsub matchDots2 r t := by
  intro n
  induction n with
  | zero => intro _; simp
  | succ k ih =>
    intro hk
    rw [List.replicate_succ, List.cons_append]
    have h0 : matchDots2 ('.' :: (List.replicate k '.' ++ t)) = 0 := by
      unfold matchDots2
      rw [dotRun_cons, if_pos rfl, dotRun_replicate_append t k, ht]
      rw [if_neg (by omega)]
    rw [rsub_cons_zero _ _ _ _ h0, ih (by omega), List.cons_append]

theorem rsub_dots4_match (r t : List Char) (ht : dotRun t = 0) (n : Nat)
    (hn : 4 ≤ n) : rsub matchDots4 r (List.replicate n '.' ++ t) =
      r ++ rsub matchDots4 r t := by
  obtain ⟨m, rfl⟩ : ∃ m, n = m + 1 := ⟨n - 1, by omega⟩
  rw [List.replicate_succ, List.cons_append]
  have hrun : dotRun ('.' :: (List.replicate m '.' ++ t)) = m + 1 := by
    rw [dotRun_cons, if_pos rfl, dotRun_replicate_append t m, ht]
  have hm : matchDots4 ('.' :: (List.replicate m '.' ++ t)) = m + 1 := by
    unfold matchDots4
    rw [hrun, if_pos (by omega)]
  rw [rsub_cons_pos _ _ _ _ m hm]
  have hd : List.drop m (List.replicate m '.' ++ t) = t := by
    have h2 := List.drop_left (List.replicate m '.') t
    rwa [List.length_replicate] at h2
  rw [hd]

theorem rsub_dots3_match (r X : List Char) (hX : dotRun X = 0) :
    rsub matchDots3 r (List.replicate 3 '.' ++ X) =
      r ++ rsub matchDots3 r X := by
  have hshape : List.replicate 3 '.' ++ X = '.' :: '.' :: '.' :: X := rfl
  rw [hshape]
  have hrun : dotRun ('.' :: '.' :: '.' :: X) = 3 := by
    rw [dotRun_cons, if_pos rfl, dotRun_cons, if_pos rfl, dotRun_cons,
      if_pos rfl, hX]
  have hm : matchDots3 ('.' :: '.' :: '.' :: X) = 2 + 1 := by
    unfold matchDots3
    rw [hrun, if_pos (by omega)]
  rw [rsub_cons_pos _ _ _ _ 2 hm]
  rfl

theorem rsub_dots2_match (r X : List Char) (hX : dotRun X = 0) :
    rsub matchDots2 r (List.replicate 2 '.' ++ X) =
      r ++ rsub matchDots2 r X := by
  have hshape : List.replicate 2 '.' ++ X = '.' :: '.' :: X := rfl
  rw [hshape]
  have hrun : dotRun ('.' :: '.' :: X) = 2 := by
    rw [dotRun_cons, if_pos rfl, dotRun_cons, if_pos rfl, hX]
  have hm : matchDots2 ('.' :: '.' :: X) = 1 + 1 := by
    unfold matchDots2
    rw [hrun, if_pos (by omega)]
  rw [rsub_cons_pos _ _ _ _ 1 hm]
  rfl

theorem rsub_longPH_skip_medPH (x : List Char) :
    rsub (matchLit longPH) spcDots3 (medPH ++ x) =
      medPH ++ rsub (matchLit longPH) spcDots3 x := by
  apply rsub_append_zero
  intro i hi
  have hi' : i < 11 := by simpa [medPH] using hi
  interval_cases i <;> rfl

theorem dotRunSpecF_succ (f : Nat) (c : Char) (cs : List Char) :
    dotRunSpecF (f + 1) (c :: cs) =
      if c = '.' then
        pauseOfRun (dotRun (c :: cs)) ++
          dotRunSpecF f (List.drop (dotRun (c :: cs) - 1) cs)
      else c :: dotRunSpecF f cs := by
  simp only [dotRunSpecF]

theorem dotRunSpecF_congr :
    ∀ (f g : Nat) (s : List Char), s.length ≤ f → s.length ≤ g →
      dotRunSpecF f s = dotRunSpecF g s := by
  intro f
  induction f with
  | zero =>
    intro g s hf hg
    cases s with
    | nil => cases g <;> rfl
    | cons c cs => simp at hf
  | succ f ih =>
    intro g s hf hg
    cases s with
    | nil => cases g <;> rfl
    | cons c cs =>
      cases g with
      | zero => simp at hg
      | succ g' =>
        simp only [List.length_cons, Nat.add_le_add_iff_right] at hf hg
        rw [dotRunSpecF_succ f c cs, dotRunSpecF_succ g' c cs]
        by_cases hc : c = '.'
        · rw [if_pos hc, if_pos hc]
          have hd : (List.drop (dotRun (c :: cs) - 1) cs).length ≤ f := by
            rw [List.length_drop]; omega
          have hd' : (List.drop (dotRun (c :: cs) - 1) cs).length ≤ g' := by
            rw [List.length_drop]; omega
          rw [ih g' _ hd hd']
        · rw [if_neg hc, if_neg hc, ih g' cs hf hg]

theorem dotRunSpec_cons_ne (c : Char) (cs : List Char) (hc : c ≠ '.') :
    dotRunSpec (c :: cs) = c :: dotRunSpec cs := by
  unfold dotRunSpec
  rw [List.length_cons, dotRunSpecF_succ cs.length c cs, if_neg hc]

theorem dotRunSpec_run (n : Nat) (t : List Char) (hn : 1 ≤ n)
    (ht : dotRun t = 0) :
    dotRunSpec (List.replicate n '.' ++ t) =
      pauseOfRun n ++ dotRunSpec t := by
  obtain ⟨m, rfl⟩ : ∃ m, n = m + 1 := ⟨n - 1, by omega⟩
  rw [List.replicate_succ, List.cons_append]
  have hrun : dotRun ('.' :: (List.replicate m '.' ++ t)) = m + 1 := by
    rw [dotRun_cons, if_pos rfl, dotRun_replicate_append t m, ht]
  unfold dotRunSpec
  rw [List.length_cons, dotRunSpecF_succ _ '.' _, if_pos rfl, hrun]
  have hd : List.drop (m + 1 - 1) (List.replicate m '.' ++ t) = t := by
    have h2 := List.drop_left (List.replicate m '.') t
    rw [List.length_replicate] at h2
    simp only [Nat.add_sub_cancel]
    exact h2
  rw [hd]
  congr 1
  exact dotRunSpecF_congr _ _ t (by simp) (le_refl _)

theorem pauseOfRun_ge3 (n : Nat) (hn : 3 ≤ n) : pauseOfRun n = spcDots3 := by
  unfold pauseOfRun
  rw [if_pos hn]

theorem pauseOfRun_two : pauseOfRun 2 = spcDots2 := by
  unfold pauseOfRun
  norm_num

theorem pauseOfRun_one : pauseOfRun 1 = ['.'] := by
  unfold pauseOfRun
  norm_num

theorem matchLit_ne_head (p : List Char) (q : Char) (p' : List Char)
    (hp : p = q :: p') (c : Char) (t : List Char) (hc : c ≠ q) :
    matchLit p (c :: t) = 0 := by
  subst hp
  exact matchLit_cons_ne q p' c t hc

theorem matchLit_trig_head (p : List Char) (c : Char) (cs : List Char)
    (h : matchLit p (c :: cs) ≠ 0) (q : Char) (p' : List Char)
    (hp : p = q :: p') : c = q := by
  subst hp
  exact matchLit_trig q p' c cs h

theorem rsub_lit_self (p : List Char) (hp : p ≠ []) (r x : List Char) :
    rsub (matchLit p) r (p ++ x) = r ++ rsub (matchLit p) r x := by
  cases p with
  | nil => exact absurd rfl hp
  | cons q p' => exact rsub_lit_cons q p' r x

theorem dotStage_aux :
    ∀ (k : Nat) (s : List Char), s.length ≤ k → '⟨' ∉ s →
      dotStage s = dotRunSpec s := by
  intro k
  induction k with
  | zero =>
    intro s hl _
    have hs : s = [] := List.eq_nil_of_length_eq_zero (Nat.le_zero.mp hl)
    subst hs
    rfl
  | succ k ih =>
    intro s hl hmem
    cases s with
    | nil => rfl
    | cons c cs =>
      by_cases hc : c = '.'
      · subst hc
        have hdec : '.' :: cs =
            List.replicate (dotRun ('.' :: cs)) '.' ++
              List.dropWhile (fun x => x == '.') ('.' :: cs) :=
          dots_decomp _
        set n := dotRun ('.' :: cs) with hn
        set t := List.dropWhile (fun x => x == '.') ('.' :: cs) with htdef
        have ht0 : dotRun t = 0 := dotRun_dropWhile_dots _
        have hn1 : 1 ≤ n := by
          rw [hn, dotRun_cons, if_pos rfl]
          omega
        have hlen : ('.' :: cs).length = n + t.length := by
          conv_lhs => rw [hdec]
          simp
        have hlt : t.length ≤ k := by
          simp only [List.length_cons] at hl hlen
          omega
        have hmt : '⟨' ∉ t := fun hx => hmem (by
          rw [hdec]
          exact List.mem_append_right _ hx)
        have iht := ih t hlt hmt
        unfold dotStage at iht
        have hd4t : dotRun (rsub matchDots4 longPH t) = 0 :=
          dotRun_rsub_zero matchDots4 longPH matchDots4_trig t ht0
        have hd3t : dotRun
            (rsub matchDots3 longPH (rsub matchDots4 longPH t)) = 0 :=
          dotRun_rsub_zero matchDots3 longPH matchDots3_trig _ hd4t
        unfold dotStage
        rw [hdec]
        by_cases h4 : 4 ≤ n
        · rw [rsub_dots4_match longPH t ht0 n h4]
          rw [rsub_append_triggerless matchDots3 longPH (fun x => x = '.')
            matchDots3_trig longPH _ (by decide)]
          rw [rsub_append_triggerless matchDots2 medPH (fun x => x = '.')
            matchDots2_trig longPH _ (by decide)]
          rw [rsub_lit_self longPH (by decide) spcDots3 _]
          rw [rsub_append_triggerless (matchLit medPH) spcDots2
            (fun x => x = '⟨')
            (fun c cs h => matchLit_trig_head medPH c cs h '⟨' _ rfl)
            spcDots3 _ (by decide)]
          rw [iht, dotRunSpec_run n t hn1 ht0, pauseOfRun_ge3 n (by omega)]
        · by_cases h3 : n = 3
          · rw [h3]
            rw [rsub_dots4_skip longPH t ht0 3 (by omega)]
            rw [rsub_dots3_match longPH _ hd4t]
            rw [rsub_append_triggerless matchDots2 medPH (fun x => x = '.')
              matchDots2_trig longPH _ (by decide)]
            rw [rsub_lit_self longPH (by decide) spcDots3 _]
            rw [rsub_append_triggerless (matchLit medPH) spcDots2
              (fun x => x = '⟨')
              (fun c cs h => matchLit_trig_head medPH c cs h '⟨' _ rfl)
              spcDots3 _ (by decide)]
            rw [iht, dotRunSpec_run 3 t (by omega) ht0,
              pauseOfRun_ge3 3 (by omega)]
          · by_cases h2 : n = 2
            · rw [h2]
              rw [rsub_dots4_skip longPH t ht0 2 (by omega)]
              rw [rsub_dots3_skip longPH _ hd4t 2 (by omega)]
              rw [rsub_dots2_match medPH _ hd3t]
              rw [rsub_longPH_skip_medPH _]
              rw [rsub_lit_self medPH (by decide) spcDots2 _]
              rw [iht, dotRunSpec_run 2 t (by omega) ht0, pauseOfRun_two]
            · have h1 : n = 1 := by omega
              rw [h1]
              rw [rsub_dots4_skip longPH t ht0 1 (by omega)]
              rw [rsub_dots3_skip longPH _ hd4t 1 (by omega)]
              rw [rsub_dots2_skip medPH _ hd3t 1 (by omega)]
              rw [rsub_append_triggerless (matchLit longPH) spcDots3
                (fun x => x = '⟨')
                (fun c cs h => matchLit_trig_head longPH c cs h '⟨' _ rfl)
                (List.replicate 1 '.') _ (by decide)]
              rw [rsub_append_triggerless (matchLit medPH) spcDots2
                (fun x => x = '⟨')
                (fun c cs h => matchLit_trig_head medPH c cs h '⟨' _ rfl)
                (List.replicate 1 '.') _ (by decide)]
              rw [iht, dotRunSpec_run 1 t (by omega) ht0, pauseOfRun_one]
              rfl
      · have hcb : c ≠ '⟨' := fun h => hmem (h ▸ List.mem_cons_self c cs)
        have hmcs : '⟨' ∉ cs := fun h => hmem (List.mem_cons_of_mem c h)
        have hlcs : cs.length ≤ k := by
          simp only [List.length_cons] at hl
          omega
        have ihcs := ih cs hlcs hmcs
        unfold dotStage at ihcs
        unfold dotStage
        rw [rsub_cons_zero _ _ _ _ (matchDots4_head c cs hc)]
        rw [rsub_cons_zero _ _ _ _ (matchDots3_head c _ hc)]
        rw [rsub_cons_zero _ _ _ _ (matchDots2_head c _ hc)]
        rw [rsub_cons_zero _ _ _ _ (matchLit_ne_head longPH '⟨' _ rfl c _ hcb)]
        rw [rsub_cons_zero _ _ _ _ (matchLit_ne_head medPH '⟨' _ rfl c _ hcb)]
        rw [ihcs, dotRunSpec_cons_ne c cs hc]

/-- C4: in `process_text_for_tts`, the placeholder-based dot-run
substitution chain (`\.{4,}`, then `\.{3}`, then `\.{2}` into
placeholders, then placeholder resolution) maps every maximal run of
periods exactly as the spec describes: three or four-or-more periods to
the long-pause marker, exactly two to the short-pause marker, and a
lone period unchanged — provided the text does not already contain the
placeholder delimiter character, which would be spoofed by the
resolution step. -/
theorem dotStage_eq_dotRunSpec (s : List Char) (hs : '⟨' ∉ s) :
    dotStage s = dotRunSpec s :=
  dotStage_aux s.length s (le_refl _) hs

theorem matchBr_trig (c : Char) (cs : List Char) (h : matchBr (c :: cs) ≠ 0) :
    c = '<' := by
  by_contra hc
  exact h (matchBr_head c cs hc)

theorem matchBrBr_trig (c : Char) (cs : List Char)
    (h : matchBrBr (c :: cs) ≠ 0) : c = '<' := by
  by_contra hc
  exact h (matchBrBr_head c cs hc)

theorem matchAnyFormTag_trig (name : List Char) (c : Char) (cs : List Char)
    (h : matchAnyFormTag name (c :: cs) ≠ 0) : c = '<' := by
  by_contra hc
  exact h (matchAnyFormTag_head name c cs hc)

theorem matchCloseThenOpen_trig (name : List Char) (c : Char) (cs : List Char)
    (h : matchCloseThenOpen name (c :: cs) ≠ 0) : c = '<' := by
  by_contra hc
  exact h (matchCloseThenOpen_head name c cs hc)

theorem matchAnyTag_trig (c : Char) (cs : List Char)
    (h : matchAnyTag (c :: cs) ≠ 0) : c = '<' := by
  by_contra hc
  exact h (matchAnyTag_head c cs hc)

theorem matchBullet1_trig (c : Char) (cs : List Char)
    (h : matchBullet1 (c :: cs) ≠ 0) : c = '<' ∨ c = '🔸' := by
  by_contra hc
  push_neg at hc
  exact h (matchBullet1_head c cs hc.1 hc.2)

theorem matchBullet2_trig (c : Char) (cs : List Char)
    (h : matchBullet2 (c :: cs) ≠ 0) : c = '<' ∨ c = '🔸' := by
  by_contra hc
  push_neg at hc
  exact h (matchBullet2_head c cs hc.1 hc.2)

theorem matchNewline_trig (c : Char) (cs : List Char)
    (h : matchNewline (c :: cs) ≠ 0) : c = '\r' ∨ c = '\n' :=
  matchNewline_head c cs h

theorem matchDots4_ge (t : List Char) (h : matchDots4 t ≠ 0) :
    4 ≤ dotRun t := by
  unfold matchDots4 at h
  split at h
  case isTrue hp => exact hp
  case isFalse => exact absurd rfl h

theorem matchDots3_ge (t : List Char) (h : matchDots3 t ≠ 0) :
    3 ≤ dotRun t := by
  unfold matchDots3 at h
  split at h
  case isTrue hp => exact hp
  case isFalse => exact absurd rfl h

theorem matchDots2_ge (t : List Char) (h : matchDots2 t ≠ 0) :
    2 ≤ dotRun t := by
  unfold matchDots2 at h
  split at h
  case isTrue hp => exact hp
  case isFalse => exact absurd rfl h

theorem dotRun_ge2_shape (t : List Char) (h : 2 ≤ dotRun t) :
    ∃ r, t = '.' :: '.' :: r := by
  cases t with
  | nil => simp [dotRun] at h
  | cons c cs =>
    rw [dotRun_cons] at h
    by_cases hc : c = '.'
    · rw [if_pos hc] at h
      cases cs with
      | nil => simp [dotRun] at h
      | cons d ds =>
        rw [dotRun_cons] at h
        by_cases hd : d = '.'
        · exact ⟨ds, by rw [hc, hd]⟩
        · rw [if_neg hd] at h
          omega
    · rw [if_neg hc] at h
      omega

theorem infix_of_containsSeq (pat s : List Char)
    (h : containsSeq pat s = true) : pat <:+: s := by
  induction s with
  | nil =>
    unfold containsSeq at h
    have hp : pat <+: [] := List.isPrefixOf_iff_prefix.mp h
    exact hp.isInfix
  | cons c cs ih =>
    unfold containsSeq at h
    rcases Bool.or_eq_true_iff.mp h with h1 | h1
    · exact (List.isPrefixOf_iff_prefix.mp h1).isInfix
    · exact (ih h1).trans (List.infix_cons (List.infix_refl cs))

theorem replaceAll_eq_self_of_not_contains (pat repl s : List Char)
    (h : containsSeq pat s = false) : replaceAllLit pat repl s = s := by
  unfold replaceAllLit
  apply rsub_eq_self
  intro c cs hsuf
  by_contra hne
  have hpre := matchLit_prefix pat (c :: cs) hne
  have hinfix : pat <:+: s := hpre.isInfix.trans hsuf.isInfix
  rw [containsSeq_of_within pat s hinfix] at h
  simp at h

theorem foldl_replace_eq_self (L : List (List Char × List Char))
    (s : List Char) (h : ∀ pr ∈ L, containsSeq pr.1 s = false) :
    List.foldl (fun acc pr => replaceAllLit pr.1 pr.2 acc) s L = s := by
  induction L with
  | nil => rfl
  | cons pr L' ih =>
    rw [List.foldl_cons,
      replaceAll_eq_self_of_not_contains pr.1 pr.2 s
        (h pr (List.mem_cons_self pr L')),
      ih (fun q hq => h q (List.mem_cons_of_mem pr hq))]

theorem rsub_eq_self_headset (m : List Char → Nat) (r : List Char)
    (s0 : List Char) (trig : Char → Prop)
    (hm : ∀ c cs, m (c :: cs) ≠ 0 → trig c) (hs : ∀ c ∈ s0, ¬ trig c) :
    rsub m r s0 = s0 := by
  apply rsub_eq_self
  intro c cs hsuf
  by_contra hne
  exact hs c (hsuf.subset (List.mem_cons_self c cs)) (hm c cs hne)

theorem pyStrip_within (s : List Char) : pyStrip s <:+: s := by
  unfold pyStrip
  have h1 : List.dropWhile pyWs s <:+ s := List.dropWhile_suffix pyWs
  have h2 : List.dropWhile pyWs (List.reverse (List.dropWhile pyWs s)) <:+
      List.reverse (List.dropWhile pyWs s) := List.dropWhile_suffix pyWs
  have h3 : (List.dropWhile pyWs
      (List.reverse (List.dropWhile pyWs s))).reverse <+:
      List.dropWhile pyWs s := by
    have := List.reverse_prefix.mpr h2
    rwa [List.reverse_reverse] at this
  exact h3.isInfix.trans h1.isInfix

theorem bool_ne_false (b : Bool) (h : ¬ b = false) : b = true := by
  cases b
  · exact absurd rfl h
  · rfl

theorem hasWsDashWs_decomp (t : List Char) (h : hasWsDashWs t = true) :
    ∃ u a b v, pyWs a = true ∧ pyWs b = true ∧
      t = u ++ a :: '-' :: b :: v := by
  induction t with
  | nil => simp [hasWsDashWs] at h
  | cons a rest ih =>
    cases rest with
    | nil => simp [hasWsDashWs] at h
    | cons b rest2 =>
      cases rest2 with
      | nil => simp [hasWsDashWs] at h
      | cons c r =>
        unfold hasWsDashWs at h
        rcases Bool.or_eq_true_iff.mp h with h1 | h1
        · simp only [Bool.and_eq_true, beq_iff_eq] at h1
          exact ⟨[], a, c, r, h1.1.1, h1.2, by rw [h1.1.2]; rfl⟩
        · obtain ⟨u, a', b', v, ha', hb', heq⟩ := ih h1
          exact ⟨a :: u, a', b', v, ha', hb', by rw [heq]; rfl⟩

theorem hasWsDashWs_within (t s : List Char) (ht : t <:+: s)
    (h : hasWsDashWs t = true) : hasWsDashWs s = true := by
  obtain ⟨u, a, b, v, ha, hb, heq⟩ := hasWsDashWs_decomp t h
  obtain ⟨u', v', huv⟩ := ht
  have hre : s = (u' ++ u) ++ a :: '-' :: b :: (v ++ v') := by
    rw [← huv, heq]
    simp
  rw [hre]
  exact hasWsDashWs_of _ _ a b ha hb

theorem hasDotDot_decomp (t : List Char) (h : hasDotDot t = true) :
    ∃ u v, t = u ++ '.' :: '.' :: v := by
  induction t with
  | nil => simp [hasDotDot] at h
  | cons a rest ih =>
    cases rest with
    | nil => simp [hasDotDot] at h
    | cons b r =>
      unfold hasDotDot at h
      rcases Bool.or_eq_true_iff.mp h with h1 | h1
      · simp only [Bool.and_eq_true, beq_iff_eq] at h1
        exact ⟨[], r, by rw [h1.1, h1.2]; rfl⟩
      · obtain ⟨u, v, heq⟩ := ih h1
        exact ⟨a :: u, v, by rw [heq]; rfl⟩

theorem hasDotDot_within (t s : List Char) (ht : t <:+: s)
    (h : hasDotDot t = true) : hasDotDot s = true := by
  obtain ⟨u, v, heq⟩ := hasDotDot_decomp t h
  obtain ⟨u', v', huv⟩ := ht
  have hre : s = (u' ++ u) ++ '.' :: '.' :: (v ++ v') := by
    rw [← huv, heq]
    simp
  rw [hre]
  exact hasDotDot_of _ _

theorem dashPass_id_of_no_wsdash (s : List Char)
    (h : hasWsDashWs s = false) : dashPass s = s := by
  unfold dashPass
  apply rsub_eq_self
  intro c cs hsuf
  by_contra hne
  obtain ⟨u, a, b, v, ha, hb, heq⟩ := matchDash_decomp _ hne
  have hinf : (c :: cs) <:+: s := hsuf.isInfix
  rw [heq] at hinf
  rw [hasWsDashWs_within _ s hinf (hasWsDashWs_of u v a b ha hb)] at h
  simp at h

theorem plainInput_facts (s : List Char) (hp : plainInput s = true) :
    (∀ c ∈ s, c ≠ '<' ∧ c ≠ '>' ∧ c ≠ '|' ∧ c ≠ '\n' ∧ c ≠ '\r' ∧
      c ≠ '🔸' ∧ c ≠ '⟨' ∧ c ≠ '⟩') ∧
    hasWsDashWs s = false ∧ hasDotDot s = false ∧
    (∀ pr ∈ entityTable, containsSeq pr.1 s = false) ∧
    containsSeq ltEnt s = false ∧ containsSeq gtEnt s = false := by
  unfold plainInput at hp
  simp only [Bool.and_eq_true, List.all_eq_true, Bool.not_eq_true'] at hp
  obtain ⟨⟨⟨⟨⟨h1, h2⟩, h3⟩, h4⟩, h5⟩, h6⟩ := hp
  refine ⟨?_, h2, h3, h4, h5, h6⟩
  intro c hcs
  have hpc := h1 c hcs
  unfold plainChar at hpc
  simp only [Bool.not_eq_true', Bool.or_eq_false_iff, beq_eq_false_iff_ne,
    ne_eq] at hpc
  exact ⟨hpc.1.1.1.1.1.1.1, hpc.1.1.1.1.1.1.2, hpc.1.1.1.1.1.2,
    hpc.1.1.1.1.2, hpc.1.1.1.2, hpc.1.1.2, hpc.1.2, hpc.2⟩

theorem normalizePasses_plain (s : List Char) (hp : plainInput s = true) :
    normalizePasses s = pyStrip (wsPass (pyStrip s)) := by
  obtain ⟨hchar, hdash, hdots, hent, hltent, hgtent⟩ := plainInput_facts s hp
  have hs0inf : pyStrip s <:+: s := pyStrip_within s
  have hchar0 : ∀ c ∈ pyStrip s, c ≠ '<' ∧ c ≠ '>' ∧ c ≠ '|' ∧ c ≠ '\n' ∧
      c ≠ '\r' ∧ c ≠ '🔸' ∧ c ≠ '⟨' ∧ c ≠ '⟩' :=
    fun c hc => hchar c (mem_pyStrip c s hc)
  have hlt0 : ∀ c ∈ pyStrip s, ¬ (c = '<') := fun c hc => (hchar0 c hc).1
  have e1 : bulletStage (pyStrip s) = pyStrip s := by
    unfold bulletStage
    rw [rsub_eq_self_headset matchBullet1 [] (pyStrip s) _ matchBullet1_trig
      (fun c hc h => h.elim (hchar0 c hc).1 (hchar0 c hc).2.2.2.2.2.1)]
    rw [rsub_eq_self_headset matchBullet2 [] (pyStrip s) _ matchBullet2_trig
      (fun c hc h => h.elim (hchar0 c hc).1 (hchar0 c hc).2.2.2.2.2.1)]
  have hent0 : ∀ pat : List Char, containsSeq pat s = false →
      containsSeq pat (pyStrip s) = false := by
    intro pat hpat
    by_contra hcc
    rw [containsSeq_of_within pat s
      ((infix_of_containsSeq pat _ (bool_ne_false _ hcc)).trans hs0inf)]
      at hpat
    simp at hpat
  have e2 : entityPass (pyStrip s) = pyStrip s := by
    unfold entityPass
    exact foldl_replace_eq_self entityTable (pyStrip s)
      (fun pr hpr => hent0 pr.1 (hent pr hpr))
  have e3 : tagStage (pyStrip s) = pyStrip s := by
    show rsub (matchAnyFormTag ['d', 'i', 'v']) [' ']
      (rsub (matchCloseThenOpen ['d', 'i', 'v']) spcDots2
      (rsub (matchAnyFormTag ['o', 'l']) [' ']
      (rsub (matchAnyFormTag ['u', 'l']) [' ']
      (rsub (matchAnyFormTag ['l', 'i']) [' ']
      (rsub (matchCloseThenOpen ['l', 'i']) spcDots2
      (rsub matchBr spcDots2
      (rsub matchBrBr spcDots3 (pyStrip s)))))))) = pyStrip s
    rw [rsub_eq_self_headset matchBrBr spcDots3 (pyStrip s) _
      matchBrBr_trig hlt0]
    rw [rsub_eq_self_headset matchBr spcDots2 (pyStrip s) _
      matchBr_trig hlt0]
    rw [rsub_eq_self_headset (matchCloseThenOpen ['l', 'i']) spcDots2
      (pyStrip s) _ (matchCloseThenOpen_trig ['l', 'i']) hlt0]
    rw [rsub_eq_self_headset (matchAnyFormTag ['l', 'i']) [' ']
      (pyStrip s) _ (matchAnyFormTag_trig ['l', 'i']) hlt0]
    rw [rsub_eq_self_headset (matchAnyFormTag ['u', 'l']) [' ']
      (pyStrip s) _ (matchAnyFormTag_trig ['u', 'l']) hlt0]
    rw [rsub_eq_self_headset (matchAnyFormTag ['o', 'l']) [' ']
      (pyStrip s) _ (matchAnyFormTag_trig ['o', 'l']) hlt0]
    rw [rsub_eq_self_headset (matchCloseThenOpen ['d', 'i', 'v']) spcDots2
      (pyStrip s) _ (matchCloseThenOpen_trig ['d', 'i', 'v']) hlt0]
    rw [rsub_eq_self_headset (matchAnyFormTag ['d', 'i', 'v']) [' ']
      (pyStrip s) _ (matchAnyFormTag_trig ['d', 'i', 'v']) hlt0]
  have e4 : rsub matchAnyTag [] (pyStrip s) = pyStrip s :=
    rsub_eq_self_headset matchAnyTag [] (pyStrip s) _ matchAnyTag_trig hlt0
  have e5lt : replaceAllLit ltEnt ['<'] (pyStrip s) = pyStrip s :=
    replaceAll_eq_self_of_not_contains ltEnt ['<'] (pyStrip s)
      (hent0 ltEnt hltent)
  have e5gt : replaceAllLit gtEnt ['>'] (pyStrip s) = pyStrip s :=
    replaceAll_eq_self_of_not_contains gtEnt ['>'] (pyStrip s)
      (hent0 gtEnt hgtent)
  have epipe : pipePass (pyStrip s) = pyStrip s := by
    unfold pipePass
    apply rsub_eq_self
    intro c cs hsuf
    by_contra hne
    have hmem : '|' ∈ pyStrip s := hsuf.subset (matchPipe_mem _ hne)
    exact (hchar0 '|' hmem).2.2.1 rfl
  have hdash0 : hasWsDashWs (pyStrip s) = false := by
    by_contra hcc
    rw [hasWsDashWs_within _ s hs0inf (bool_ne_false _ hcc)] at hdash
    simp at hdash
  have edash : dashPass (pyStrip s) = pyStrip s :=
    dashPass_id_of_no_wsdash (pyStrip s) hdash0
  have eangle : anglePass (pyStrip s) = pyStrip s := by
    unfold anglePass
    have elt : rsub matchLt commaSp (pyStrip s) = pyStrip s := by
      apply rsub_eq_self
      intro c cs hsuf
      by_contra hne
      have hmem : '<' ∈ pyStrip s := hsuf.subset (matchLt_mem _ hne)
      exact (hchar0 '<' hmem).1 rfl
    rw [elt]
    apply rsub_eq_self
    intro c cs hsuf
    by_contra hne
    have hmem : '>' ∈ pyStrip s := hsuf.subset (matchGt_mem _ hne)
    exact (hchar0 '>' hmem).2.1 rfl
  have enl : newlinePass (pyStrip s) = pyStrip s := by
    unfold newlinePass
    exact rsub_eq_self_headset matchNewline spcDots3 (pyStrip s) _
      matchNewline_trig
      (fun c hc h => h.elim (fun h1 => (hchar0 c hc).2.2.2.2.1 h1)
        (fun h1 => (hchar0 c hc).2.2.2.1 h1))
  have hdd0 : hasDotDot (pyStrip s) = false := by
    by_contra hcc
    rw [hasDotDot_within _ s hs0inf (bool_ne_false _ hcc)] at hdots
    simp at hdots
  have hddsuf : ∀ c : Char, ∀ cs : List Char, (c :: cs) <:+ pyStrip s →
      2 ≤ dotRun (c :: cs) → False := by
    intro c cs hsuf hge
    obtain ⟨r, hr⟩ := dotRun_ge2_shape _ hge
    have hinf : (c :: cs) <:+: pyStrip s := hsuf.isInfix
    rw [hr] at hinf
    have : hasDotDot (pyStrip s) = true :=
      hasDotDot_within _ _ hinf (hasDotDot_of [] r)
    rw [this] at hdd0
    simp at hdd0
  have edot : dotStage (pyStrip s) = pyStrip s := by
    unfold dotStage
    rw [rsub_eq_self matchDots4 longPH (pyStrip s)
      (fun c cs hsuf => by
        by_contra hne
        exact hddsuf c cs hsuf (by have := matchDots4_ge _ hne; omega))]
    rw [rsub_eq_self matchDots3 longPH (pyStrip s)
      (fun c cs hsuf => by
        by_contra hne
        exact hddsuf c cs hsuf (by have := matchDots3_ge _ hne; omega))]
    rw [rsub_eq_self matchDots2 medPH (pyStrip s)
      (fun c cs hsuf => by
        by_contra hne
        exact hddsuf c cs hsuf (matchDots2_ge _ hne))]
    rw [rsub_eq_self_headset (matchLit longPH) spcDots3 (pyStrip s) _
      (fun c cs h => matchLit_trig_head longPH c cs h '⟨' _ rfl)
      (fun c hc h => (hchar0 c hc).2.2.2.2.2.2.1 h)]
    rw [rsub_eq_self_headset (matchLit medPH) spcDots2 (pyStrip s) _
      (fun c cs h => matchLit_trig_head medPH c cs h '⟨' _ rfl)
      (fun c hc h => (hchar0 c hc).2.2.2.2.2.2.1 h)]
  show pyStrip (wsPass (dotStage (newlinePass (anglePass (dashPass (pipePass
    (replaceAllLit gtEnt ['>'] (replaceAllLit ltEnt ['<'] (rsub matchAnyTag []
    (tagStage (entityPass (bulletStage (pyStrip s))))))))))))) =
    pyStrip (wsPass (pyStrip s))
  rw [e1, e2, e3, e4, e5lt, e5gt, epipe, edash, eangle, enl, edot]

theorem matchLt_lt_ne (cs : List Char) : matchLt ('<' :: cs) ≠ 0 := by
  have hw : pyWs '<' = false := rfl
  simp [matchLt, List.dropWhile_cons, hw]

theorem matchGt_gt_ne (cs : List Char) : matchGt ('>' :: cs) ≠ 0 := by
  have hw : pyWs '>' = false := rfl
  simp [matchGt, List.dropWhile_cons, hw]

theorem angle_tail_no_markup (X : List Char) :
    '<' ∉ pyStrip (wsPass (dotStage (newlinePass (anglePass X)))) ∧
    '>' ∉ pyStrip (wsPass (dotStage (newlinePass (anglePass X)))) := by
  have h1 : '<' ∉ rsub matchLt commaSp X :=
    not_mem_rsub matchLt commaSp '<' X matchLt_lt_ne (by decide)
  have h2 : '<' ∉ anglePass X :=
    rsub_pres_not_mem matchGt commaSp '<' _ (by decide) h1
  have h3 : '>' ∉ anglePass X :=
    not_mem_rsub matchGt commaSp '>' _ matchGt_gt_ne (by decide)
  have h4 : '<' ∉ newlinePass (anglePass X) :=
    rsub_pres_not_mem matchNewline spcDots3 '<' _ (by decide) h2
  have h5 : '>' ∉ newlinePass (anglePass X) :=
    rsub_pres_not_mem matchNewline spcDots3 '>' _ (by decide) h3
  have h6 : '<' ∉ dotStage (newlinePass (anglePass X)) := by
    unfold dotStage
    exact rsub_pres_not_mem _ _ '<' _ (by decide)
      (rsub_pres_not_mem _ _ '<' _ (by decide)
        (rsub_pres_not_mem _ _ '<' _ (by decide)
          (rsub_pres_not_mem _ _ '<' _ (by decide)
            (rsub_pres_not_mem _ _ '<' _ (by decide) h4))))
  have h7 : '>' ∉ dotStage (newlinePass (anglePass X)) := by
    unfold dotStage
    exact rsub_pres_not_mem _ _ '>' _ (by decide)
      (rsub_pres_not_mem _ _ '>' _ (by decide)
        (rsub_pres_not_mem _ _ '>' _ (by decide)
          (rsub_pres_not_mem _ _ '>' _ (by decide)
            (rsub_pres_not_mem _ _ '>' _ (by decide) h5))))
  have h8 : '<' ∉ wsPass (dotStage (newlinePass (anglePass X))) :=
    rsub_pres_not_mem matchWsRun [' '] '<' _ (by decide) h6
  have h9 : '>' ∉ wsPass (dotStage (newlinePass (anglePass X))) :=
    rsub_pres_not_mem matchWsRun [' '] '>' _ (by decide) h7
  exact ⟨fun hm => h8 (mem_pyStrip '<' _ hm), fun hm => h9 (mem_pyStrip '>' _ hm)⟩

theorem normalizePasses_no_markup (s : List Char) :
    '<' ∉ normalizePasses s ∧ '>' ∉ normalizePasses s :=
  angle_tail_no_markup
    (dashPass (pipePass (replaceAllLit gtEnt ['>'] (replaceAllLit ltEnt ['<']
      (rsub matchAnyTag [] (tagStage (entityPass (bulletStage (pyStrip s)))))))))

theorem processTextForTTS_rate_one (cfg : TTSConfig) (s : List Char)
    (h : cfg.speech_rate = 1) :
    processTextForTTS cfg (PyInput.pyStr s) = normalizePasses s := by
  by_cases hs : s = []
  · subst hs
    rfl
  · simp only [processTextForTTS]
    rw [if_neg (show ¬ s.isEmpty = true by simp [List.isEmpty_iff, hs])]
    rw [if_neg (show ¬ (cfg.speech_rate ≠ 1) by simp [h])]
    by_cases ht : (normalizePasses s).isEmpty
    · rw [if_pos ht]
      exact (List.isEmpty_iff.mp ht).symm
    · rw [if_neg ht]

theorem prosodyWrap_ne_nil (cfg : TTSConfig) (t : List Char) :
    (prosodyWrap cfg t).isEmpty = false := by
  simp [prosodyWrap, prosodyOpen]

theorem processTextForTTS_wrap (cfg : TTSConfig) (s : List Char)
    (hs : s ≠ []) (h : cfg.speech_rate ≠ 1) :
    processTextForTTS cfg (PyInput.pyStr s) =
      prosodyWrap cfg (normalizePasses s) := by
  simp only [processTextForTTS]
  rw [if_neg (show ¬ s.isEmpty = true by simp [List.isEmpty_iff, hs])]
  rw [if_pos (show cfg.speech_rate ≠ 1 from h)]
  rw [if_neg (show ¬ (prosodyWrap cfg (normalizePasses s)).isEmpty = true by
    simp [prosodyWrap_ne_nil])]

theorem addAudioToNote_cases (ed : Editor) (env : Env) :
    (addAudioToNote ed env).2 = ed ∨ (addAudioToNote ed env).1 = true := by
  unfold addAudioToNote
  split
  · exact Or.inl rfl
  · split
    · exact Or.inl rfl
    · split
      · split
        · exact Or.inr rfl
        · exact Or.inl rfl
      · exact Or.inl rfl

theorem processText_editor_cases (cfg : TTSConfig) (env : Env) (ed : Editor) :
    (processText cfg env ed).ok = true ∨
    (processText cfg env ed).editor = ed ∨
    (processText cfg env ed).editor = clearAudioField ed := by
  simp only [processText]
  split
  · exact Or.inr (Or.inl rfl)
  · split
    · exact Or.inr (Or.inl rfl)
    · split
      · exact Or.inr (Or.inl rfl)
      · split
        · exact Or.inr (Or.inl rfl)
        · split
          · exact Or.inr (Or.inl rfl)
          · split
            · exact Or.inr (Or.inr rfl)
            · split
              next hcond => exact Or.inl rfl
              next hcond =>
                rcases addAudioToNote_cases (clearAudioField ed) env with
                  h | h
                · exact Or.inr (Or.inr h)
                · exact absurd h hcond

theorem processText_cleanup_cases (cfg : TTSConfig) (env : Env) (ed : Editor) :
    (processText cfg env ed).ok = false ∨
      ((processText cfg env ed).tempCreated = true ∧
       (processText cfg env ed).tempDeleted = env.removeOk) := by
  simp only [processText]
  split
  · exact Or.inl rfl
  · split
    · exact Or.inl rfl
    · split
      · exact Or.inl rfl
      · split
        · exact Or.inl rfl
        · split
          · exact Or.inl rfl
          · split
            · exact Or.inl rfl
            · split
              · exact Or.inr ⟨rfl, rfl⟩
              · exact Or.inl rfl

/-- C4 witness: the dot-run equivalence at a concrete input holding runs
of one, two, three and four periods. -/
theorem dotStage_eq_dotRunSpec_witness :
    '⟨' ∉ ("a....b... c.. d. e".data) ∧
    dotStage ("a....b... c.. d. e".data) =
      dotRunSpec ("a....b... c.. d. e".data) :=
  ⟨by decide, dotStage_eq_dotRunSpec ("a....b... c.. d. e".data) (by decide)⟩

/-- C1 counterexample: with the configured (default-style) non-neutral
speech rate, the returned string contains the prosody tag, and the
input `&amp;amp;` yields the unresolved entity `&amp;` in the output
because `str.replace` does not rescan its own replacement. -/
theorem processTextForTTS_markup_counterexample :
    processTextForTTS cfgDouble (PyInput.pyStr ("&amp;amp;".data)) =
      ("<prosody rate=\"2.0\">&amp;</prosody>".data) ∧
    '<' ∈ processTextForTTS cfgDouble (PyInput.pyStr ("&amp;amp;".data)) ∧
    containsSeq ("&amp;".data)
      (processTextForTTS cfgDouble (PyInput.pyStr ("&amp;amp;".data))) =
      true := by
  decide

/-- C1 (amended): with the neutral speech rate, the output of
`process_text_for_tts` contains no `<` and no `>` character at all, and
hence no tag; with a non-neutral rate the only markup is the enclosing
prosody wrapper. -/
theorem processTextForTTS_neutral_no_markup (cfg : TTSConfig)
    (s : List Char) (h : cfg.speech_rate = 1) :
    '<' ∉ processTextForTTS cfg (PyInput.pyStr s) ∧
    '>' ∉ processTextForTTS cfg (PyInput.pyStr s) := by
  rw [processTextForTTS_rate_one cfg s h]
  exact normalizePasses_no_markup s

/-- C1 witness: the no-markup invariant at a concrete neutral-rate
configuration and input. -/
theorem processTextForTTS_neutral_no_markup_witness :
    '<' ∉ processTextForTTS cfgNeutral (PyInput.pyStr ("<b>x</b>".data)) ∧
    '>' ∉ processTextForTTS cfgNeutral (PyInput.pyStr ("<b>x</b>".data)) :=
  processTextForTTS_neutral_no_markup cfgNeutral ("<b>x</b>".data) rfl

/-- C2 counterexample: when synthesis fails, `process_text` returns
failure but the audio field has already been cleared, so the note is
not left as it was before the call. -/
theorem processText_failure_mutates_counterexample :
    (processText cfgNeutral envSynthFail edWithAudio).ok = false ∧
    (processText cfgNeutral envSynthFail edWithAudio).editor ≠
      edWithAudio := by
  decide

/-- C2 (amended): on every failing invocation of `process_text` the
note is either untouched (validation failures) or exactly the result of
the audio-field clearing that precedes synthesis; no other field is
modified on failure. -/
theorem processText_failure_mutation (cfg : TTSConfig) (env : Env)
    (ed : Editor) (h : (processText cfg env ed).ok = false) :
    (processText cfg env ed).editor = ed ∨
      (processText cfg env ed).editor = clearAudioField ed := by
  rcases processText_editor_cases cfg env ed with h1 | h1 | h1
  · rw [h] at h1
    exact absurd h1 (by simp)
  · exact Or.inl h1
  · exact Or.inr h1

/-- C2 witness: the amended mutation bound at a concrete failing run. -/
theorem processText_failure_mutation_witness :
    (processText cfgNeutral envSynthFail edWithAudio).editor =
        edWithAudio ∨
      (processText cfgNeutral envSynthFail edWithAudio).editor =
        clearAudioField edWithAudio :=
  processText_failure_mutation cfgNeutral envSynthFail edWithAudio (by decide)

/-- C3 counterexample: for whitespace-only input the normalized text is
empty, yet with a non-neutral rate the function returns a non-empty
wrapper-only string, because the emptiness check runs after the
wrapping. -/
theorem processTextForTTS_wrapper_only_counterexample :
    normalizePasses [' '] = [] ∧
    processTextForTTS cfgDouble (PyInput.pyStr [' ']) ≠ [] := by
  decide

/-- C3 (amended): when the normalization passes yield the empty string,
`process_text_for_tts` returns the empty string if the neutral rate is
configured; with a non-neutral rate it returns the wrapper applied to
the empty content. -/
theorem processTextForTTS_empty_core (cfg : TTSConfig) (s : List Char)
    (h1 : normalizePasses s = []) :
    (cfg.speech_rate = 1 → processTextForTTS cfg (PyInput.pyStr s) = []) ∧
    (cfg.speech_rate ≠ 1 → s ≠ [] →
      processTextForTTS cfg (PyInput.pyStr s) =
        prosodyOpen cfg ++ prosodyClose) := by
  constructor
  · intro h
    rw [processTextForTTS_rate_one cfg s h, h1]
  · intro h hs
    rw [processTextForTTS_wrap cfg s hs h, h1]
    simp [prosodyWrap]

/-- C3 witness: both branches of the amended empty-core behavior at a
concrete whitespace-only input. -/
theorem processTextForTTS_empty_core_witness :
    normalizePasses [' '] = [] ∧
    processTextForTTS cfgNeutral (PyInput.pyStr [' ']) = [] ∧
    processTextForTTS cfgDouble (PyInput.pyStr [' ']) =
      prosodyOpen cfgDouble ++ prosodyClose :=
  ⟨by decide,
    (processTextForTTS_empty_core cfgNeutral [' '] (by decide)).1 rfl,
    (processTextForTTS_empty_core cfgDouble [' '] (by decide)).2
      (by decide) (by decide)⟩

/-- C5: for non-empty input, the result of all other normalization
passes is enclosed in exactly one prosody wrapper exactly when the
configured speech rate differs from the neutral `1.0`; the enclosed
text contains no angle bracket (so the wrapper is unique), and with the
neutral rate the output is never of wrapper form. -/
theorem processTextForTTS_prosody_iff (cfg : TTSConfig) (s : List Char)
    (hs : s ≠ []) :
    (cfg.speech_rate ≠ 1 →
      processTextForTTS cfg (PyInput.pyStr s) =
        prosodyOpen cfg ++ normalizePasses s ++ prosodyClose ∧
      '<' ∉ normalizePasses s ∧ '>' ∉ normalizePasses s) ∧
    (cfg.speech_rate = 1 →
      ∀ t, processTextForTTS cfg (PyInput.pyStr s) ≠
        prosodyOpen cfg ++ t) := by
  constructor
  · intro h
    refine ⟨?_, (normalizePasses_no_markup s).1,
      (normalizePasses_no_markup s).2⟩
    rw [processTextForTTS_wrap cfg s hs h]
    rfl
  · intro h t heq
    rw [processTextForTTS_rate_one cfg s h] at heq
    have hlt : '<' ∈ prosodyOpen cfg ++ t := by
      apply List.mem_append_left
      simp [prosodyOpen]
    rw [← heq] at hlt
    exact (normalizePasses_no_markup s).1 hlt

/-- C5 witness: the wrap and no-wrap sides at concrete configurations. -/
theorem processTextForTTS_prosody_iff_witness :
    processTextForTTS cfgDouble (PyInput.pyStr ['h', 'i']) =
      prosodyOpen cfgDouble ++ normalizePasses ['h', 'i'] ++ prosodyClose ∧
    processTextForTTS cfgNeutral (PyInput.pyStr ['h', 'i']) ≠
      prosodyOpen cfgNeutral ++ [] :=
  ⟨((processTextForTTS_prosody_iff cfgDouble ['h', 'i'] (by decide)).1
      (by decide)).1,
    (processTextForTTS_prosody_iff cfgNeutral ['h', 'i'] (by decide)).2
      rfl []⟩

/-- C6 counterexample: on a plain input with the (default-style)
non-neutral rate the function does not return the input up to
whitespace normalization, but the prosody-wrapped text. -/
theorem processTextForTTS_plain_wrap_counterexample :
    plainInput ("hello".data) = true ∧
    processTextForTTS cfgDouble (PyInput.pyStr ("hello".data)) ≠
      ("hello".data) ∧
    processTextForTTS cfgDouble (PyInput.pyStr ("hello".data)) =
      ("<prosody rate=\"2.0\">hello</prosody>".data) := by
  decide

/-- C6 (amended): for plain input (no markup, no entities, no pipes, no
angle brackets, no whitespace-surrounded hyphen, no newlines, no
multi-period run) and the neutral speech rate, `process_text_for_tts`
is the identity up to whitespace collapsing and trimming. -/
theorem processTextForTTS_plain_identity (cfg : TTSConfig) (s : List Char)
    (hp : plainInput s = true) (hr : cfg.speech_rate = 1) :
    processTextForTTS cfg (PyInput.pyStr s) =
      pyStrip (wsPass (pyStrip s)) := by
  rw [processTextForTTS_rate_one cfg s hr, normalizePasses_plain s hp]

/-- C6 witness: the identity-up-to-whitespace at a concrete plain
input. -/
theorem processTextForTTS_plain_identity_witness :
    plainInput ("hei  ho".data) = true ∧
    processTextForTTS cfgNeutral (PyInput.pyStr ("hei  ho".data)) =
      pyStrip (wsPass (pyStrip ("hei  ho".data))) ∧
    pyStrip (wsPass (pyStrip ("hei  ho".data))) = ("hei ho".data) :=
  ⟨by decide,
    processTextForTTS_plain_identity cfgNeutral ("hei  ho".data)
      (by decide) rfl,
    by decide⟩

/-- C7 counterexample: in `a - - b` both hyphens are surrounded by
whitespace, yet only the first is converted — the match consumes the
shared whitespace, so the second hyphen survives into the output still
surrounded by whitespace. -/
theorem dashPass_shared_whitespace_counterexample :
    processTextForTTS cfgNeutral (PyInput.pyStr ("a - - b".data)) =
      ("a, - b".data) ∧
    containsSeq [' ', '-', ' '] ("a - - b".data) = true ∧
    containsSeq [' ', '-', ' ']
      (processTextForTTS cfgNeutral (PyInput.pyStr ("a - - b".data))) =
      true := by
  decide

/-- C7 (amended): a hyphen lacking whitespace on a side is never
converted — the dash substitution is the identity on any text with no
whitespace-surrounded hyphen — and an isolated whitespace-surrounded
hyphen between non-whitespace characters is always converted to the
comma-space separator; only overlap with a preceding match can leave a
whitespace-surrounded hyphen unconverted. -/
theorem dashPass_hyphen_behavior :
    (∀ s : List Char, hasWsDashWs s = false → dashPass s = s) ∧
    (∀ x y : Char, pyWs x = false → pyWs y = false →
      dashPass [x, ' ', '-', ' ', y] = [x, ',', ' ', y]) := by
  constructor
  · exact dashPass_id_of_no_wsdash
  · intro x y hx hy
    unfold dashPass
    have h0 : matchDash (x :: [' ', '-', ' ', y]) = 0 := by
      simp [matchDash, hx]
    rw [rsub_cons_zero _ _ _ _ h0]
    have hm : matchDash [' ', '-', ' ', y] = 2 + 1 := by
      have hsp : pyWs ' ' = true := rfl
      have hdsh : pyWs '-' = false := rfl
      simp [matchDash, List.dropWhile_cons, List.takeWhile_cons, hsp, hdsh,
        hy]
    rw [rsub_cons_pos _ _ _ _ 2 hm]
    have h1 : matchDash [y] = 0 := by
      simp [matchDash, hy]
    show x :: (commaSp ++ rsub matchDash commaSp [y]) = [x, ',', ' ', y]
    rw [rsub_cons_zero _ _ _ _ h1]
    rfl

/-- C7 witness: an in-token hyphen preserved and an isolated
space-surrounded hyphen converted. -/
theorem dashPass_hyphen_behavior_witness :
    dashPass ("x-y".data) = ("x-y".data) ∧
    dashPass ("a - b".data) = ("a, b".data) :=
  ⟨dashPass_hyphen_behavior.1 ("x-y".data) (by decide),
    dashPass_hyphen_behavior.2 'a' 'b' (by decide) (by decide)⟩

/-- C8: `process_text_for_tts` is total in the model (it never raises),
and empty-string, `None` and non-string input all yield exactly the
empty string through the initial guard. -/
theorem processTextForTTS_guard_empty (cfg : TTSConfig) (x : PyInput)
    (h : x = PyInput.pyNone ∨ x = PyInput.pyOther ∨
      x = PyInput.pyStr []) :
    processTextForTTS cfg x = [] := by
  rcases h with h | h | h <;> subst h <;> rfl

/-- C8 witness: the empty result on each degenerate input. -/
theorem processTextForTTS_guard_empty_witness :
    processTextForTTS cfgNeutral PyInput.pyNone = [] ∧
    processTextForTTS cfgDouble PyInput.pyOther = [] ∧
    processTextForTTS cfgDouble (PyInput.pyStr []) = [] :=
  ⟨processTextForTTS_guard_empty cfgNeutral _ (Or.inl rfl),
    processTextForTTS_guard_empty cfgDouble _ (Or.inr (Or.inl rfl)),
    processTextForTTS_guard_empty cfgDouble _ (Or.inr (Or.inr rfl))⟩

/-- C9 counterexample: when attaching fails (no audio field on the
note), `process_text` returns failure with the temporary file created
but not deleted. -/
theorem processText_leak_counterexample :
    (processText cfgNeutral envAllOk edNoAudio).ok = false ∧
    (processText cfgNeutral envAllOk edNoAudio).tempCreated = true ∧
    (processText cfgNeutral envAllOk edNoAudio).tempDeleted = false := by
  decide

/-- C9 (amended): the temporary audio file is deleted only on the
success path: whenever `process_text` returns success, the file was
created and is deleted exactly when the silent `os.remove` succeeds;
the failure paths after synthesis leave the file in place. -/
theorem processText_success_cleanup (cfg : TTSConfig) (env : Env)
    (ed : Editor) (h : (processText cfg env ed).ok = true) :
    (processText cfg env ed).tempCreated = true ∧
      (processText cfg env ed).tempDeleted = env.removeOk := by
  rcases processText_cleanup_cases cfg env ed with h1 | h1
  · rw [h] at h1
    exact absurd h1 (by simp)
  · exact h1

/-- C9 witness: the success-path cleanup at a concrete successful run. -/
theorem processText_success_cleanup_witness :
    (processText cfgNeutral envAllOk edWithAudio).tempCreated = true ∧
    (processText cfgNeutral envAllOk edWithAudio).tempDeleted =
      envAllOk.removeOk :=
  processText_success_cleanup cfgNeutral envAllOk edWithAudio (by decide)

/-- C10: the result of `process_text_for_tts` depends only on the input
text and the configured speech-rate multiplier (with its rendering):
any two configurations agreeing on those produce identical output on
every input, so the normalizer is deterministic and free of hidden
dependence on the rest of the configuration. -/
theorem processTextForTTS_config_independent (c1 c2 : TTSConfig)
    (x : PyInput) (h1 : c1.speech_rate = c2.speech_rate)
    (h2 : c1.speech_rate_str = c2.speech_rate_str) :
    processTextForTTS c1 x = processTextForTTS c2 x := by
  cases x with
  | pyStr s =>
    simp only [processTextForTTS]
    rw [h1]
    have hw : prosodyWrap c1 (normalizePasses s) =
        prosodyWrap c2 (normalizePasses s) := by
      unfold prosodyWrap prosodyOpen
      rw [h2]
    rw [hw]
  | pyNone => rfl
  | pyOther => rfl

/-- C10 witness: two configurations differing in every other field give
the same output. -/
theorem processTextForTTS_config_independent_witness :
    processTextForTTS cfgNeutral (PyInput.pyStr ['h', 'i']) =
      processTextForTTS cfgNeutralAlt (PyInput.pyStr ['h', 'i']) :=
  processTextForTTS_config_independent cfgNeutral cfgNeutralAlt
    (PyInput.pyStr ['h', 'i']) rfl rfl
